import Mathlib

/-! # The SCP responder of `internal/client/scpHandler.go`

A shallow embedding of the SCP handler: the receiving side (`readProtocolControl`,
`readAck`, `readFile`, `readDirectory`, `to`) and the sending side (`from`,
`scpTransferDirectory`, `scpTransferFile`), together with the few library
routines they rely on (`strings.SplitN`, `strconv.ParseInt`, `bufio.Reader.ReadString`,
`filepath.Join`, `filepath.Base`, the `fmt` verbs `%#o` and `%d`), followed by
theorems about what the code does.

Conventions.
* A byte, on the wire or in a Go string, is a natural number (`Nat`); text is
  written with `ascii`.
* A Go run-time panic is the `Except.error` branch of a result.
* A loop that may spin forever takes a fuel argument and returns `none`
  when the fuel is used up.
* The sending side runs in a `Session`, which logs its calls in order.
-/

namespace ScpHandler

/-! ## Bytes and text -/

/-- The bytes of an ASCII literal. -/
def ascii (s : String) : List Nat := s.toList.map Char.toNat

/-! ## `strings.SplitN` with a one-byte separator -/

/-- The text before the first occurrence of `sep`, and the text after it when
there is one (`strings.Index` followed by the two slicings of `genSplit`). -/
def cut (sep : Nat) : List Nat → List Nat × Option (List Nat)
  | [] => ([], none)
  | c :: cs =>
    if c = sep then ([], some cs)
    else
      match cut sep cs with
      | (before, after) => (c :: before, after)

/-- Go `strings.SplitN(s, sep, n)` for a separator of one byte and `n ≥ 0`:
at most `n` pieces, the last one holding the unsplit remainder. -/
def splitN (sep : Nat) : Nat → List Nat → List (List Nat)
  | 0, _ => []
  | 1, s => [s]
  | n + 2, s =>
    match cut sep s with
    | (before, none) => [before]
    | (before, some after) => before :: splitN sep (n + 1) after

/-! ## `strconv.ParseInt` -/

/-- The two error kinds of `strconv`: `ErrSyntax` and `ErrRange`. -/
inductive NumError where
  | invalid
  | range
  deriving DecidableEq, Repr

/-- The digit a byte stands for in `ParseUint`: `0-9`, then letters of either
case from ten upwards (`lower(c) = c | 0x20`). -/
def digitVal (c : Nat) : Option Nat :=
  if 48 ≤ c ∧ c ≤ 57 then some (c - 48)
  else if 97 ≤ (c ||| 32) ∧ (c ||| 32) ≤ 122 then some ((c ||| 32) - 97 + 10)
  else none

/-- The digit loop of `strconv.ParseUint` for an explicit base, with
`maxVal = 2^bitSize - 1` and `cutoff = (2^64 - 1) / base + 1`. -/
def parseUintLoop (base maxVal cutoff : Nat) : List Nat → Nat → Nat × Option NumError
  | [], n => (n, none)
  | c :: cs, n =>
    match digitVal c with
    | none => (0, some .invalid)
    | some d =>
      if base ≤ d then (0, some .invalid)
      else if cutoff ≤ n then (maxVal, some .range)
      else
        let m := (n * base) % 2 ^ 64
        let n1 := (m + d) % 2 ^ 64
        if n1 < m ∨ maxVal < n1 then (maxVal, some .range)
        else parseUintLoop base maxVal cutoff cs n1

/-- Go `strconv.ParseUint(s, base, bitSize)` for `2 ≤ base ≤ 36`, `1 ≤ bitSize ≤ 64`. -/
def parseUint (s : List Nat) (base bitSize : Nat) : Nat × Option NumError :=
  match s with
  | [] => (0, some .invalid)
  | _ => parseUintLoop base (2 ^ bitSize - 1) ((2 ^ 64 - 1) / base + 1) s 0

/-- The part of `strconv.ParseInt` after the sign has been picked off. -/
def parseIntSigned (neg : Bool) (s : List Nat) (base bitSize : Nat) : Int × Option NumError :=
  match parseUint s base bitSize with
  | (_, some .invalid) => (0, some .invalid)
  | (un, _) =>
    let cutoff : Nat := 2 ^ (bitSize - 1)
    if !neg ∧ cutoff ≤ un then (((cutoff - 1 : Nat) : Int), some .range)
    else if neg ∧ cutoff < un then (-(cutoff : Int), some .range)
    else if neg then (-(un : Int), none)
    else ((un : Int), none)

/-- Go `strconv.ParseInt(s, base, bitSize)` for `2 ≤ base ≤ 36`, `1 ≤ bitSize ≤ 64`:
the value and the error, if any.  A malformed text gives `0`, an out-of-range
one the nearest bound. -/
def parseInt (s : List Nat) (base bitSize : Nat) : Int × Option NumError :=
  match s with
  | [] => (0, some .invalid)
  | c :: rest =>
    if c = 43 then parseIntSigned false rest base bitSize
    else if c = 45 then parseIntSigned true rest base bitSize
    else parseIntSigned false (c :: rest) base bitSize

/-- Go conversion `uint32(x)` of an `int64`. -/
def toUint32 (x : Int) : Nat := (x % 2 ^ 32).toNat

/-- Go conversion `uint64(x)` of an `int64`. -/
def toUint64 (x : Int) : Nat := (x % 2 ^ 64).toNat

/-! ## Control records -/

/-- Equality of results is decidable, so that a run can be checked by evaluation. -/
instance instDecidableEqExcept {ε α : Type} [DecidableEq ε] [DecidableEq α] :
    DecidableEq (Except ε α)
  | .ok a, .ok b => if h : a = b then isTrue (by rw [h]) else isFalse (fun e => h (by cases e; rfl))
  | .error a, .error b =>
    if h : a = b then isTrue (by rw [h]) else isFalse (fun e => h (by cases e; rfl))
  | .ok _, .error _ => isFalse (fun e => by cases e)
  | .error _, .ok _ => isFalse (fun e => by cases e)

/-- The four results of `readProtocolControl`. -/
structure Control where
  kind : String
  mode : Nat
  size : Nat
  name : List Nat
  deriving DecidableEq, Repr

/-- The record `"", 0, 0, ""` returned for a line that is not understood. -/
def Control.unknown : Control := ⟨"", 0, 0, []⟩

/-- The record `"exit", 0, 0, ""`. -/
def Control.exit : Control := ⟨"exit", 0, 0, []⟩

/-- Lines 57-79 of `readProtocolControl`: what the function returns for the
text `control` it has read.  `Except.error` is a run-time panic. -/
def parseControl (control : List Nat) : Except String Control :=
  match splitN 32 3 control with
  | [p0, p1, p2] =>
    match p0 with
    | [] => .error "slice bounds out of range [1:0]"
    | lead :: modeText =>
      let mode := (parseInt modeText 8 32).1
      let size := (parseInt p1 10 64).1
      match p2 with
      | [] => .error "slice bounds out of range [:-1]"
      | _ :: _ =>
        let filename := p2.dropLast
        if lead = 68 then .ok ⟨"dir", toUint32 mode, toUint64 size, filename⟩
        else if lead = 67 then .ok ⟨"file", toUint32 mode, toUint64 size, filename⟩
        else if lead = 69 then .ok ⟨"exit", 0, 0, []⟩
        else .ok ⟨"", 0, 0, []⟩
  | _ => .ok ⟨"", 0, 0, []⟩

/-! ## The channel -/

/-- One side of an `ssh.Channel`.  `incoming` is what the peer sends, in
bursts: a read sees only the burst at the head, the next burst arrives once
that one has been consumed, and after the last burst the peer has closed the
channel.  `written` is everything written to the peer so far. -/
structure Channel where
  incoming : List (List Nat)
  written : List Nat
  deriving DecidableEq, Repr

/-- The bytes a read of `n > 0` bytes returns and what stays queued; `none` is `io.EOF`. -/
def recv : List (List Nat) → Nat → Option (List Nat × List (List Nat))
  | [], _ => none
  | [] :: rest, n => recv rest n
  | (b :: bs) :: rest, n => some ((b :: bs).take n, (b :: bs).drop n :: rest)

/-- Go `connection.Read(buf)` with `len(buf) = n`: the bytes read, `none` for
an error.  A read into an empty buffer returns at once with no bytes; any other
read returns `min(n, available)` bytes, or `io.EOF` when the peer has closed. -/
def Channel.read (c : Channel) (n : Nat) : Option (List Nat) × Channel :=
  if n = 0 then (some [], c)
  else
    match recv c.incoming n with
    | none => (none, { c with incoming := [] })
    | some (data, rest) => (some data, { c with incoming := rest })

/-- Go `connection.Write(p)`; the handler never looks at its result. -/
def Channel.write (c : Channel) (p : List Nat) : Channel :=
  { c with written := c.written ++ p }

/-- Number of bytes the peer still has queued. -/
def Channel.pending (c : Channel) : Nat := c.incoming.flatten.length

/-- The text up to and including the first `delim`, when there is one. -/
def throughDelim (delim : Nat) : List Nat → Option (List Nat)
  | [] => none
  | c :: cs =>
    if c = delim then some [c]
    else (throughDelim delim cs).map (fun l => c :: l)

/-- The loop of `bufio.Reader.ReadString` over a fresh 4096-byte reader: `acc`
is the text gathered so far, which holds no delimiter.  Each round fills the
free part of the buffer with one read and searches the new bytes; bytes read
behind the delimiter stay in the reader, which is dropped on return. -/
def readStringLoop (delim : Nat) : Nat → Channel → List Nat → List Nat × Bool × Channel
  | 0, c, acc => (acc, true, c)
  | fuel + 1, c, acc =>
    match c.read (4096 - acc.length % 4096) with
    | (none, c1) => (acc, true, c1)
    | (some data, c1) =>
      match throughDelim delim data with
      | some line => (acc ++ line, false, c1)
      | none => readStringLoop delim fuel c1 (acc ++ data)

/-- Go `bufio.NewReader(connection).ReadString(delim)`: the text read, whether
an error came with it, and the channel afterwards.  Every round but the last
consumes at least one byte, so `pending + 1` rounds are enough. -/
def readString (delim : Nat) (c : Channel) : List Nat × Bool × Channel :=
  readStringLoop delim (c.pending + 1) c []

/-- Go `readProtocolControl`: the read error is only logged, the zero byte is
written, then the text is taken apart. -/
def readProtocolControl (connection : Channel) : Channel × Except String Control :=
  match readString 10 connection with
  | (control, _, c1) => (c1.write [0], parseControl control)

/-- The errors the handler can return: those of the channel and of the file
system, "ACK bad", "Client unable to receive new file" and "Creating directory
failed". -/
inductive GoError where
  | eof
  | ackBad
  | isDirectory
  | notExist
  | exist
  | denied
  | newFileRefused
  | directoryRefused
  deriving DecidableEq, Repr

/-- Go `readAck`: the status byte, or `-1` with the error of the read. -/
def readAck (conn : Channel) : (Int × Option GoError) × Channel :=
  match conn.read 1 with
  | (none, c1) => ((-1, some .eof), c1)
  | (some [], c1) => ((0, none), c1)
  | (some (b :: _), c1) => (((b : Int), none), c1)

/-! ## Paths: `filepath.Clean`, `filepath.Join`, `filepath.Dir` on Unix -/

/-- A file-system path, as the bytes of the Go string. -/
abbrev Path := List Nat

/-- All pieces of a text between occurrences of `sep`. -/
def splitAll (sep : Nat) : List Nat → List (List Nat)
  | [] => [[]]
  | c :: cs =>
    if c = sep then [] :: splitAll sep cs
    else
      match splitAll sep cs with
      | [] => [[c]]
      | piece :: pieces => (c :: piece) :: pieces

/-- One step of `filepath.Clean` over the elements kept so far (innermost
first): a `..` removes the element before it, or is kept at the front of a
path that is not rooted, or is dropped at the root. -/
def cleanStep (rooted : Bool) (kept : List (List Nat)) (elem : List Nat) : List (List Nat) :=
  if elem = [] ∨ elem = [46] then kept
  else if elem = [46, 46] then
    match kept with
    | [] => if rooted then [] else [elem]
    | top :: below => if top = [46, 46] then elem :: top :: below else below
  else elem :: kept

/-- The elements of a path put together again, a `/` between two of them. -/
def joinSlash : List (List Nat) → List Nat
  | [] => []
  | [x] => x
  | x :: y :: rest => x ++ 47 :: joinSlash (y :: rest)

/-- The elements `filepath.Clean` keeps, innermost first. -/
def cleanKept (rooted : Bool) (path : Path) : List (List Nat) :=
  (splitAll 47 path).foldl (cleanStep rooted) []

/-- The cleaned path written out: a rooted path starts with `/`, an empty
relative path is `.`. -/
def renderPath (rooted : Bool) (kept : List (List Nat)) : Path :=
  if rooted then 47 :: joinSlash kept.reverse
  else if joinSlash kept.reverse = [] then [46] else joinSlash kept.reverse

/-- Go `filepath.Clean` on Unix. -/
def filepathClean (path : Path) : Path :=
  match path with
  | [] => [46]
  | first :: _ => renderPath (decide (first = 47)) (cleanKept (decide (first = 47)) path)

/-- Go `filepath.Join(dir, name)` on Unix. -/
def filepathJoin (dir name : Path) : Path :=
  if dir = [] then (if name = [] then [] else filepathClean name)
  else filepathClean (dir ++ 47 :: name)

/-- The text up to and including the last `/`, empty when there is none. -/
def throughLastSlash : List Nat → List Nat
  | [] => []
  | c :: cs =>
    match throughLastSlash cs with
    | [] => if c = 47 then [c] else []
    | rest => c :: rest

/-- Go `filepath.Dir` on Unix: the directory a path lies in. -/
def filepathDir (path : Path) : Path := filepathClean (throughLastSlash path)

/-! ## The file system -/

/-- What a path names.  `denied` stands for a path on which every operation
fails with an error that is neither "does not exist" nor "exists".  `mode` is
a Go `fs.FileMode` without its type bits: the mode argument of the call that
made the node, and what `Stat` reports for a node that is read. -/
inductive Node where
  | file (mode : Nat) (data : List Nat)
  | dir (mode : Nat)
  | denied
  deriving DecidableEq, Repr

/-- The file system: the nodes by path, first entry for a path wins. -/
abbrev FS := List (Path × Node)

/-- The node a path names. -/
def FS.get : FS → Path → Option Node
  | [], _ => none
  | (q, n) :: rest, p => if q = p then some n else FS.get rest p

/-- The file system with `p` naming `n`. -/
def FS.put (fs : FS) (p : Path) (n : Node) : FS :=
  (p, n) :: fs.filter (fun e => e.1 ≠ p)

/-- Go `os.Stat`: the node, or the error. -/
def osStat (fs : FS) (p : Path) : Except GoError Node :=
  match fs.get p with
  | none => .error .notExist
  | some .denied => .error .denied
  | some n => .ok n

/-- Go `os.OpenFile(path, os.O_WRONLY|os.O_CREATE, mode)`: an existing file is
opened as it is (it is not truncated), a missing one is created empty inside an
existing directory. -/
def osOpenFile (fs : FS) (path : Path) (mode : Nat) : Except GoError FS :=
  match fs.get path with
  | some (.file _ _) => .ok fs
  | some (.dir _) => .error .isDirectory
  | some .denied => .error .denied
  | none =>
    match fs.get (filepathDir path) with
    | some (.dir _) => .ok (fs.put path (.file mode []))
    | some .denied => .error .denied
    | _ => .error .notExist

/-- Go `os.Mkdir(path, mode)`. -/
def osMkdir (fs : FS) (path : Path) (mode : Nat) : Except GoError FS :=
  match fs.get path with
  | some .denied => .error .denied
  | some _ => .error .exist
  | none =>
    match fs.get (filepathDir path) with
    | some (.dir _) => .ok (fs.put path (.dir mode))
    | some .denied => .error .denied
    | _ => .error .notExist

/-- The content of a file after `data` is written at offset `off`. -/
def overwriteAt (old : List Nat) (off : Nat) (data : List Nat) : List Nat :=
  old.take off ++ List.replicate (off - old.length) 0 ++ data ++ old.drop (off + data.length)

/-- Go `f.Write(data)` on a file opened at `path` whose offset is `off`; the
write is taken to succeed in full (`nf = n`, no error). -/
def fileWrite (fs : FS) (path : Path) (off : Nat) (data : List Nat) : FS :=
  match fs.get path with
  | some (.file m old) => fs.put path (.file m (overwriteAt old off data))
  | _ => fs

/-! ## Receiving -/

/-- The `for` loop of `readFile` (lines 93-115): `off` is the offset of the
open file, `nn` the running count.  Every round reads into `b[:size%1024]`. -/
def readFileLoop (path : Path) (size : Nat) :
    Nat → Channel → FS → Nat → Nat → Option (Option GoError × Channel × FS)
  | 0, _, _, _, _ => none
  | fuel + 1, conn, fs, off, nn =>
    match conn.read (size % 1024) with
    | (none, c1) => some (some .eof, c1, fs)
    | (some data, c1) =>
      let nn1 := (nn + data.length) % 2 ^ 64
      let fs1 := fileWrite fs path off data
      if nn1 = size then some (none, c1, fs1)
      else readFileLoop path size fuel c1 fs1 (off + data.length) nn1

/-- Go `readFile`: the error returned (`none` for `nil`), the channel and the
file system afterwards; `none` when the loop does not end within `fuel` rounds. -/
def readFile (fuel : Nat) (connection : Channel) (fs : FS) (path : Path) (mode size : Nat) :
    Option (Option GoError × Channel × FS) :=
  match osOpenFile fs path mode with
  | .error e => some (some e, connection, fs)
  | .ok fs0 =>
    match readFileLoop path size fuel connection fs0 0 0 with
    | none => none
    | some (some e, c1, fs1) => some (some e, c1, fs1)
    | some (none, c1, fs1) =>
      match readAck c1 with
      | ((status, _), c2) =>
        if status ≠ 0 then some (some .ackBad, c2, fs1)
        else some (none, c2.write [0], fs1)

/-- What a run of the receiving side leaves behind: the panic message if it
ended in a run-time panic, the channel and the file system. -/
structure Outcome where
  panicked : Option String
  conn : Channel
  fs : FS
  deriving DecidableEq, Repr

mutual

/-- Go `readDirectory`: one unit of fuel is spent per call and per round of
its `for` loop; `none` when the fuel is used up before it returns. -/
def readDirectory : Nat → Channel → FS → Path → Nat → Option Outcome
  | 0, _, _, _, _ => none
  | fuel + 1, connection, fs, path, mode =>
    match osMkdir fs path mode with
    | .error .exist =>
      match readProtocolControl connection with
      | (c1, .error msg) => some ⟨some msg, c1, fs⟩
      | (c1, .ok r) => readDirectoryLoop fuel c1 fs r (filepathJoin path r.name)
    | .error _ => some ⟨none, connection, fs⟩
    | .ok fs1 =>
      match readProtocolControl connection with
      | (c1, .error msg) => some ⟨some msg, c1, fs1⟩
      | (c1, .ok r) => readDirectoryLoop fuel c1 fs1 r (filepathJoin path r.name)

/-- The `for` loop of `readDirectory` (lines 137-146): the record `r` and
`newPath` are those computed before the loop and stay as they are. -/
def readDirectoryLoop : Nat → Channel → FS → Control → Path → Option Outcome
  | 0, _, _, _, _ => none
  | fuel + 1, connection, fs, r, newPath =>
    if r.kind = "dir" then
      match readDirectory fuel connection fs newPath r.mode with
      | none => none
      | some ⟨some msg, c1, fs1⟩ => some ⟨some msg, c1, fs1⟩
      | some ⟨none, c1, fs1⟩ => readDirectoryLoop fuel c1 fs1 r newPath
    else if r.kind = "file" then
      match readFile fuel connection fs newPath r.mode r.size with
      | none => none
      | some (_, c1, fs1) => readDirectoryLoop fuel c1 fs1 r newPath
    else if r.kind = "exit" then some ⟨none, connection, fs⟩
    else readDirectoryLoop fuel connection fs r newPath

end

/-- Go `to`, the driver of the receiving side (`to` is reserved in Lean). -/
def scpTo (fuel : Nat) (tocreate : Path) (connection : Channel) (fs : FS) : Option Outcome :=
  match readProtocolControl (connection.write [0]) with
  | (c1, .error msg) => some ⟨some msg, c1, fs⟩
  | (c1, .ok r) =>
    if r.kind = "dir" then some ⟨none, c1, fs⟩
    else if r.kind = "file" then
      match osStat fs tocreate with
      | .error .notExist =>
        match readFile fuel c1 fs tocreate r.mode r.size with
        | none => none
        | some (_, c2, fs2) => some ⟨none, c2, fs2⟩
      | .error _ => some ⟨none, c1, fs⟩
      | .ok pathinfo =>
        let path := match pathinfo with
          | .dir _ => filepathJoin tocreate r.name
          | _ => tocreate
        match readFile fuel c1 fs path r.mode r.size with
        | none => none
        | some (_, c2, fs2) => some ⟨none, c2, fs2⟩
    else some ⟨none, c1, fs⟩

/-! ## Sending -/

/-- The digits of `n` in the given base (at most ten), least significant first. -/
def digitsRev (base : Nat) : Nat → Nat → List Nat
  | 0, _ => []
  | fuel + 1, n =>
    if n < base then [48 + n] else (48 + n % base) :: digitsRev base fuel (n / base)

/-- The digits of `n` in the given base, without a leading zero (`0` for zero). -/
def formatNat (base n : Nat) : List Nat := (digitsRev base (n + 1) n).reverse

/-- Go `fmt` verb `%d` for a number that is not negative. -/
def fmtDecimal (n : Nat) : List Nat := formatNat 10 n

/-- Go `fmt` verb `%#o`: the octal digits with a `0` in front, unless they
start with `0` already. -/
def fmtSharpOctal (n : Nat) : List Nat :=
  match formatNat 8 n with
  | [] => [48]
  | d :: rest => if d = 48 then d :: rest else 48 :: d :: rest

/-- Go `filepath.Base` on Unix: the last element of a path, trailing
separators removed. -/
def filepathBase (path : Path) : Path :=
  if path = [] then [46]
  else
    let stripped := (path.reverse.dropWhile (fun c => c = 47)).reverse
    let last := stripped.drop (throughLastSlash stripped).length
    if last = [] then [47] else last

/-- The part of an `fs.FileInfo` the handler uses: `Name()`, `Size()`,
`IsDir()`, and the bits of `Mode()` other than the type bits. -/
structure FileInfo where
  name : List Nat
  size : Nat
  isDir : Bool
  mode : Nat
  deriving DecidableEq, Repr

/-- Go `fi.Mode().Perm()`: the nine permission bits. -/
def FileInfo.perm (fi : FileInfo) : Nat := fi.mode % 512

/-- The `fs.FileInfo` of a node that is there. -/
def infoOf (path : Path) : Node → Option FileInfo
  | .file m data => some ⟨filepathBase path, data.length, false, m⟩
  | .dir m => some ⟨filepathBase path, 0, true, m⟩
  | .denied => none

/-- A call the sending side makes, as it is logged in a session. -/
inductive Op where
  | readAck (status : Int)
  | write (p : List Nat)
  | stat (path : Path)
  | osOpen (path : Path)
  | readdir (path : Path)
  | fileRead (path : Path) (n : Nat)
  deriving DecidableEq, Repr

/-- The channel together with the log of the calls made on it and on the file
system, in the order they were made. -/
structure Session where
  conn : Channel
  trace : List Op
  deriving DecidableEq, Repr

/-- A `connection.Write(p)`, logged. -/
def Session.write (s : Session) (p : List Nat) : Session :=
  ⟨s.conn.write p, s.trace ++ [.write p]⟩

/-- A call of `readAck`, logged with the status it returns. -/
def Session.readAck (s : Session) : Int × Session :=
  match ScpHandler.readAck s.conn with
  | ((status, _), c1) => (status, ⟨c1, s.trace ++ [.readAck status]⟩)

/-- A call on the file system, logged. -/
def Session.note (s : Session) (op : Op) : Session := ⟨s.conn, s.trace ++ [op]⟩

/-- Go `os.Open(path)`: the node opened for reading. -/
def osOpen (fs : FS) (path : Path) : Except GoError Node :=
  match fs.get path with
  | none => .error .notExist
  | some .denied => .error .denied
  | some n => .ok n

/-- The entries of the directory `path` among `later`, in the order of the
file system; `seen` are the entries in front of them.  An entry lies in the
directory when joining the directory with its base name gives its path. -/
def entriesOf (path : Path) : FS → FS → Except GoError (List FileInfo)
  | _, [] => .ok []
  | seen, (q, n) :: later =>
    if FS.get seen q = none ∧ filepathJoin path (filepathBase q) = q ∧
        47 ∉ filepathBase q ∧ filepathBase q ≠ [46] then
      match infoOf q n, entriesOf path ((q, n) :: seen) later with
      | none, _ => .error .denied
      | some _, .error e => .error e
      | some fi, .ok rest => .ok (fi :: rest)
    else entriesOf path ((q, n) :: seen) later

/-- Go `dir.Readdir(-1)` on the directory opened at `path`. -/
def readdir (fs : FS) (path : Path) : Node → Except GoError (List FileInfo)
  | .dir _ => entriesOf path [] fs
  | _ => .error .notExist

/-- The `for` loop of `scpTransferFile` (lines 288-309) over what is left of
the file: reads of 1024 bytes, the first short one being the last. -/
def sendLoop (path : Path) : Nat → List Nat → Session → Option (Option GoError × Session)
  | 0, _, _ => none
  | fuel + 1, left, s =>
    match left with
    | [] => some (none, s.note (.fileRead path 0))
    | _ :: _ =>
      let s1 := (s.note (.fileRead path (left.take 1024).length)).write (left.take 1024)
      if (left.take 1024).length < 1024 then some (none, s1)
      else sendLoop path fuel (left.drop 1024) s1

/-- Go `scpTransferFile`: the error returned and the session afterwards; the
deferred function writes the closing zero and reads the last ACK on every
return after the file has been opened. -/
def scpTransferFile (fuel : Nat) (fs : FS) (path : Path) (fi : FileInfo) (s : Session) :
    Option (Option GoError × Session) :=
  match (s.write (67 :: fmtSharpOctal fi.mode ++ 32 :: fmtDecimal fi.size ++
      32 :: filepathBase path ++ [10])).readAck with
  | (readyToAcceptFile, s1) =>
    if readyToAcceptFile ≠ 0 then some (some .newFileRefused, s1)
    else
      match osOpen fs path with
      | .error e => some (some e, s1.note (.osOpen path))
      | .ok (.file _ data) =>
        match sendLoop path fuel data (s1.note (.osOpen path)) with
        | none => none
        | some (err, s2) => some (err, ((s2.write [0]).readAck).2)
      | .ok _ =>
        some (some .isDirectory,
          ((((s1.note (.osOpen path)).note (.fileRead path 0)).write [0]).readAck).2)

mutual

/-- Go `scpTransferDirectory`: one unit of fuel per call and per entry. -/
def scpTransferDirectory : Nat → FS → Path → FileInfo → Session →
    Option (Option GoError × Session)
  | 0, _, _, _, _ => none
  | fuel + 1, fs, path, mode, s =>
    match (s.write (68 :: fmtSharpOctal mode.perm ++ ascii " 1 " ++
        filepathBase path ++ [10])).readAck with
    | (success, s1) =>
      if success ≠ 0 then some (some .directoryRefused, s1)
      else
        match osOpen fs path with
        | .error e => some (some e, s1.note (.osOpen path))
        | .ok node =>
          match readdir fs path node with
          | .error e => some (some e, (s1.note (.osOpen path)).note (.readdir path))
          | .ok files =>
            match sendEntries fuel fs path files
                ((s1.note (.osOpen path)).note (.readdir path)) with
            | none => none
            | some (some e, s2) => some (some e, s2)
            | some (none, s2) => some (none, s2.write (ascii "E\n"))

/-- The `for` loop of `scpTransferDirectory` over the entries (lines 229-242). -/
def sendEntries : Nat → FS → Path → List FileInfo → Session →
    Option (Option GoError × Session)
  | 0, _, _, _, _ => none
  | _ + 1, _, _, [], s => some (none, s)
  | fuel + 1, fs, path, file :: rest, s =>
    if file.isDir then
      match scpTransferDirectory fuel fs (filepathJoin path file.name) file s with
      | none => none
      | some (some e, s1) => some (some e, s1)
      | some (none, s1) => sendEntries fuel fs path rest s1
    else
      match scpTransferFile fuel fs (filepathJoin path file.name) file s with
      | none => none
      | some (some e, s1) => some (some e, s1)
      | some (none, s1) => sendEntries fuel fs path rest s1

end

/-- The text of the error `os.Stat` returns, as `%s` prints it. -/
def statErrorText (path : Path) : GoError → List Nat
  | .notExist => ascii "stat " ++ path ++ ascii ": no such file or directory"
  | _ => ascii "stat " ++ path ++ ascii ": permission denied"

/-- Modelled from the spec: `internal.ScpError`, which is not in this file,
sends an error record, "a line carrying a distinguished marker and
human-readable text"; the marker is taken to be the byte 1. -/
def scpErrorRecord (reason : List Nat) : List Nat := 1 :: reason ++ [10]

/-- Go `from`, the driver of the sending side (`from` is reserved in Lean).
`scpError` gives the bytes that `internal.ScpError` writes for a message. -/
def scpFrom (scpError : List Nat → List Nat) (fuel : Nat) (fs : FS) (todownload : Path)
    (s : Session) : Option Session :=
  match s.readAck with
  | (clientReady, s1) =>
    if clientReady ≠ 0 then some s1
    else
      match osStat fs todownload with
      | .error e =>
        some ((s1.note (.stat todownload)).write
          (scpError (ascii "error: " ++ statErrorText todownload e)))
      | .ok node =>
        match infoOf todownload node with
        | none => some (s1.note (.stat todownload))
        | some fileinfo =>
          if fileinfo.isDir then
            match scpTransferDirectory fuel fs todownload fileinfo
                (s1.note (.stat todownload)) with
            | none => none
            | some (_, s2) => some ((s2.write (ascii "E\n")).readAck).2
          else
            match scpTransferFile fuel fs todownload fileinfo (s1.note (.stat todownload)) with
            | none => none
            | some (_, s2) => some ((s2.write (ascii "E\n")).readAck).2

/-! ## Reference notions used in the statements -/

/-- The number a digit string denotes in the given base (at most ten). -/
def digitsValue (base : Nat) (ds : List Nat) : Nat :=
  ds.foldl (fun acc c => acc * base + (c - 48)) 0

/-- A byte that is a digit of the given base (at most ten): `0` to `7` for
base 8, `0` to `9` for base 10. -/
def digitBelow (base : Nat) (c : Nat) : Prop := 48 ≤ c ∧ c < 48 + base

instance instDecidableDigitBelow (base : Nat) (c : Nat) : Decidable (digitBelow base c) :=
  inferInstanceAs (Decidable (48 ≤ c ∧ c < 48 + base))

/-- A name that is one path component: no separator in it, and not `..`. -/
def singleComponent (name : List Nat) : Prop := 47 ∉ name ∧ name ≠ [46, 46]

instance instDecidableSingleComponent (name : List Nat) : Decidable (singleComponent name) :=
  inferInstanceAs (Decidable (47 ∉ name ∧ name ≠ [46, 46]))

/-- A numeric field, one leading sign removed. -/
def stripSign : List Nat → List Nat
  | [] => []
  | c :: rest => if c = 43 ∨ c = 45 then rest else c :: rest

/-- A numeric field that `ParseInt` rejects as malformed: without its sign it
is empty, or it has a byte that is not a digit of the base and the digits in
front of that byte denote a number of at most `maxVal`. -/
def Malformed (base maxVal : Nat) (field : List Nat) : Prop :=
  stripSign field = [] ∨
    ∃ ds c rest, stripSign field = ds ++ c :: rest ∧ (∀ x ∈ ds, digitBelow base x) ∧
      digitsValue base ds ≤ maxVal ∧ ¬ digitBelow base c

/-- Whether a numeric field starts with the sign `-`. -/
def isNegative : List Nat → Bool
  | [] => false
  | c :: _ => decide (c = 45)

/-- The number a signed digit string of value `v` is read as with `bitSize`
bits: the value with its sign when it fits, the nearest bound when it does not. -/
def signedValue (bitSize : Nat) (neg : Bool) (v : Nat) : Int :=
  if neg then
    if v ≤ 2 ^ (bitSize - 1) then -(v : Int) else -((2 ^ (bitSize - 1) : Nat) : Int)
  else
    if v < 2 ^ (bitSize - 1) then (v : Int) else ((2 ^ (bitSize - 1) - 1 : Nat) : Int)

/-- An element that `filepath.Clean` keeps as it is: not empty, not `.`, not
`..`, without a separator. -/
def PlainName (e : List Nat) : Prop := e ≠ [] ∧ e ≠ [46] ∧ e ≠ [46, 46] ∧ 47 ∉ e

instance instDecidablePlainName (e : List Nat) : Decidable (PlainName e) :=
  inferInstanceAs (Decidable (e ≠ [] ∧ e ≠ [46] ∧ e ≠ [46, 46] ∧ 47 ∉ e))

/-- The shape of what `filepath.Clean` keeps (innermost first): plain names on
top of `..` elements, which a rooted path does not have. -/
def KeptOk (rooted : Bool) (kept : List (List Nat)) : Prop :=
  ∃ reals dots, kept = reals ++ dots ∧ (∀ e ∈ reals, PlainName e) ∧
    (∀ e ∈ dots, e = [46, 46]) ∧ (rooted = true → dots = [])

/-- What `to` does with a file header: the outcome of `readFile` on the target. -/
def received (r : Option (Option GoError × Channel × FS)) : Option Outcome :=
  r.map (fun x => ⟨none, x.2.1, x.2.2⟩)

/-- The control line `scpTransferFile` writes first. -/
def fileHeader (path : Path) (fi : FileInfo) : List Nat :=
  67 :: fmtSharpOctal fi.mode ++ 32 :: fmtDecimal fi.size ++ 32 :: filepathBase path ++ [10]

/-- The source tree of the scenario: `/tmp/a` with the file `x` and the
directory `b`, which holds the empty file `y`. -/
def scenarioTree : FS :=
  [(ascii "/tmp/a", .dir 493), (ascii "/tmp/a/x", .file 420 (ascii "abcd")),
    (ascii "/tmp/a/b", .dir 384), (ascii "/tmp/a/b/y", .file 384 [])]

/-- The tree of the scenario as a process sees it that may not search `b`:
the mode 0600 of `b` lets its owner list the names in it, and the stat of `y`
fails with "permission denied". -/
def scenarioTreeNoSearch : FS :=
  [(ascii "/tmp/a", .dir 493), (ascii "/tmp/a/x", .file 420 (ascii "abcd")),
    (ascii "/tmp/a/b", .dir 384), (ascii "/tmp/a/b/y", .denied)]

/-! ## Lemmas on the library routines -/

theorem cut_append (sep : Nat) (a rest : List Nat) (h : sep ∉ a) :
    cut sep (a ++ sep :: rest) = (a, some rest) := by
  induction a with
  | nil => simp [cut]
  | cons c cs ih =>
    have hc : c ≠ sep := fun e => h (by simp [e])
    have hcs : sep ∉ cs := fun e => h (by simp [e])
    simp [cut, hc, ih hcs]

theorem cut_no_sep (sep : Nat) (a : List Nat) (h : sep ∉ a) : cut sep a = (a, none) := by
  induction a with
  | nil => simp [cut]
  | cons c cs ih =>
    have hc : c ≠ sep := fun e => h (by simp [e])
    have hcs : sep ∉ cs := fun e => h (by simp [e])
    simp [cut, hc, ih hcs]

theorem splitN_three (p0 p1 p2 : List Nat) (h0 : 32 ∉ p0) (h1 : 32 ∉ p1) :
    splitN 32 3 (p0 ++ 32 :: (p1 ++ 32 :: p2)) = [p0, p1, p2] := by
  simp [splitN, cut_append, h0, h1]

theorem digitVal_of_digitBelow {base : Nat} {c : Nat} (hb : base ≤ 10) (h : digitBelow base c) :
    digitVal c = some (c - 48) ∧ c - 48 < base := by
  obtain ⟨h1, h2⟩ := h
  have h3 : 48 ≤ c ∧ c ≤ 57 := ⟨h1, by omega⟩
  refine ⟨by simp [digitVal, h3], by omega⟩

theorem digitVal_of_not_digitBelow {base : Nat} {c : Nat} (hb : base ≤ 10)
    (h : ¬ digitBelow base c) :
    digitVal c = none ∨ ∃ d, digitVal c = some d ∧ base ≤ d := by
  unfold digitVal
  by_cases h1 : 48 ≤ c ∧ c ≤ 57
  · right
    refine ⟨c - 48, by simp [h1], ?_⟩
    have : ¬ (48 ≤ c ∧ c < 48 + base) := h
    omega
  · by_cases h2 : 97 ≤ (c ||| 32) ∧ (c ||| 32) ≤ 122
    · right
      refine ⟨(c ||| 32) - 97 + 10, by simp [h1, h2], by omega⟩
    · left
      simp [h1, h2]

theorem foldl_digits_ge (base : Nat) (hb : 1 ≤ base) (ds : List Nat) (n : Nat) :
    n ≤ ds.foldl (fun acc c => acc * base + (c - 48)) n := by
  induction ds generalizing n with
  | nil => simp
  | cons c cs ih =>
    simp only [List.foldl_cons]
    have h1 : n ≤ n * base := Nat.le_mul_of_pos_right n hb
    exact le_trans (by omega) (ih (n * base + (c - 48)))

/-- On a run of digits whose value stays within `maxVal`, the loop of
`ParseUint` computes that value and goes on with the rest of the text. -/
theorem parseUintLoop_digits (base maxVal : Nat) (hb2 : 2 ≤ base) (hb : base ≤ 10)
    (hmax : maxVal < 2 ^ 64) (ds tail : List Nat) (n : Nat)
    (hd : ∀ x ∈ ds, digitBelow base x)
    (hv : ds.foldl (fun acc c => acc * base + (c - 48)) n ≤ maxVal) :
    parseUintLoop base maxVal ((2 ^ 64 - 1) / base + 1) (ds ++ tail) n =
      parseUintLoop base maxVal ((2 ^ 64 - 1) / base + 1) tail
        (ds.foldl (fun acc c => acc * base + (c - 48)) n) := by
  induction ds generalizing n with
  | nil => simp
  | cons c cs ih =>
    have hc := digitVal_of_digitBelow hb (hd c (by simp))
    have hcs : ∀ x ∈ cs, digitBelow base x := fun x hx => hd x (by simp [hx])
    simp only [List.foldl_cons] at hv
    have hge := foldl_digits_ge base (by omega) cs (n * base + (c - 48))
    have hle : n * base + (c - 48) ≤ maxVal := le_trans hge hv
    have hcut : ¬ ((2 ^ 64 - 1) / base + 1 ≤ n) := by
      have : n ≤ (2 ^ 64 - 1) / base := by
        rw [Nat.le_div_iff_mul_le (by omega)]
        omega
      omega
    have hm : (n * base) % 2 ^ 64 = n * base := Nat.mod_eq_of_lt (by omega)
    have hn1 : (n * base + (c - 48)) % 2 ^ 64 = n * base + (c - 48) :=
      Nat.mod_eq_of_lt (by omega)
    have hno : ¬ (n * base + (c - 48) < n * base ∨ maxVal < n * base + (c - 48)) := by omega
    have hbd : ¬ (base ≤ c - 48) := by omega
    simp only [List.cons_append, parseUintLoop, hc.1, hbd, hcut, hm, hn1, hno, if_false,
      List.foldl_cons]
    exact ih (n * base + (c - 48)) hcs hv

theorem parseUint_digits (base bitSize : Nat) (hb2 : 2 ≤ base) (hb : base ≤ 10)
    (hbits : bitSize ≤ 64) (ds : List Nat) (hne : ds ≠ [])
    (hd : ∀ x ∈ ds, digitBelow base x) (hv : digitsValue base ds ≤ 2 ^ bitSize - 1) :
    parseUint ds base bitSize = (digitsValue base ds, none) := by
  have hpow : 2 ^ bitSize ≤ 2 ^ 64 := Nat.pow_le_pow_right (by omega) hbits
  have hpos : 0 < 2 ^ bitSize := Nat.two_pow_pos bitSize
  have hmax : 2 ^ bitSize - 1 < 2 ^ 64 := by omega
  have h := parseUintLoop_digits base (2 ^ bitSize - 1) hb2 hb hmax ds [] 0 hd hv
  cases ds with
  | nil => exact absurd rfl hne
  | cons c cs =>
    simp only [List.append_nil] at h
    show parseUintLoop base (2 ^ bitSize - 1) ((2 ^ 64 - 1) / base + 1) (c :: cs) 0 = _
    rw [h]
    rfl

theorem parseUint_malformed (base bitSize : Nat) (hb2 : 2 ≤ base) (hb : base ≤ 10)
    (hbits : bitSize ≤ 64) (ds : List Nat) (c : Nat) (rest : List Nat)
    (hd : ∀ x ∈ ds, digitBelow base x) (hv : digitsValue base ds ≤ 2 ^ bitSize - 1)
    (hc : ¬ digitBelow base c) :
    parseUint (ds ++ c :: rest) base bitSize = (0, some .invalid) := by
  have hpow : 2 ^ bitSize ≤ 2 ^ 64 := Nat.pow_le_pow_right (by omega) hbits
  have hpos : 0 < 2 ^ bitSize := Nat.two_pow_pos bitSize
  have hmax : 2 ^ bitSize - 1 < 2 ^ 64 := by omega
  have h := parseUintLoop_digits base (2 ^ bitSize - 1) hb2 hb hmax ds (c :: rest) 0 hd hv
  have hbad : parseUintLoop base (2 ^ bitSize - 1) ((2 ^ 64 - 1) / base + 1) (c :: rest)
      (ds.foldl (fun acc c => acc * base + (c - 48)) 0) = (0, some .invalid) := by
    rcases digitVal_of_not_digitBelow hb hc with h0 | ⟨d, h1, h2⟩
    · simp [parseUintLoop, h0]
    · simp [parseUintLoop, h1, h2]
  have hne : ds ++ c :: rest ≠ [] := by simp
  unfold parseUint
  split
  · rename_i heq
    exact absurd heq hne
  · rw [h, hbad]

theorem parseIntSigned_invalid (neg : Bool) (s : List Nat) (base bitSize : Nat)
    (h : parseUint s base bitSize = (0, some .invalid)) :
    parseIntSigned neg s base bitSize = (0, some .invalid) := by
  simp [parseIntSigned, h]

/-- An unsigned digit string below `2^(bitSize-1)` is read as its value. -/
theorem parseInt_digits (base bitSize : Nat) (hb2 : 2 ≤ base) (hb : base ≤ 10)
    (hbits1 : 1 ≤ bitSize) (hbits : bitSize ≤ 64) (ds : List Nat) (hne : ds ≠ [])
    (hd : ∀ x ∈ ds, digitBelow base x) (hv : digitsValue base ds < 2 ^ (bitSize - 1)) :
    parseInt ds base bitSize = ((digitsValue base ds : Int), none) := by
  have hdouble : 2 ^ bitSize = 2 * 2 ^ (bitSize - 1) := by
    have : bitSize = (bitSize - 1) + 1 := by omega
    conv_lhs => rw [this, Nat.pow_succ]
    omega
  have hu := parseUint_digits base bitSize hb2 hb hbits ds hne hd (by omega)
  have hs : parseIntSigned false ds base bitSize = ((digitsValue base ds : Int), none) := by
    have h1 : ¬ (2 ^ (bitSize - 1) ≤ digitsValue base ds) := by omega
    simp [parseIntSigned, hu, h1]
  cases ds with
  | nil => exact absurd rfl hne
  | cons c cs =>
    have hc := hd c (by simp)
    have h43 : c ≠ 43 := by
      intro e; rw [e] at hc; exact absurd hc.1 (by decide)
    have h45 : c ≠ 45 := by
      intro e; rw [e] at hc; exact absurd hc.1 (by decide)
    simp only [parseInt, h43, h45, if_false]
    exact hs

/-- A malformed numeric field is read as zero. -/
theorem parseInt_malformed (base bitSize : Nat) (hb2 : 2 ≤ base) (hb : base ≤ 10)
    (hbits : bitSize ≤ 64) (field : List Nat) (h : Malformed base (2 ^ bitSize - 1) field) :
    parseInt field base bitSize = (0, some .invalid) := by
  have key : ∀ (neg : Bool) (t : List Nat),
      (t = [] ∨ ∃ ds c rest, t = ds ++ c :: rest ∧ (∀ x ∈ ds, digitBelow base x) ∧
        digitsValue base ds ≤ 2 ^ bitSize - 1 ∧ ¬ digitBelow base c) →
      parseIntSigned neg t base bitSize = (0, some .invalid) := by
    intro neg t ht
    apply parseIntSigned_invalid
    rcases ht with h0 | ⟨ds, c, rest, h1, h2, h3, h4⟩
    · rw [h0]; rfl
    · rw [h1]; exact parseUint_malformed base bitSize hb2 hb hbits ds c rest h2 h3 h4
  cases field with
  | nil => rfl
  | cons c rest =>
    unfold Malformed at h
    by_cases h43 : c = 43
    · have hs : stripSign (c :: rest) = rest := by simp [stripSign, h43]
      rw [hs] at h
      simp only [parseInt, h43, if_true]
      exact key false rest h
    · by_cases h45 : c = 45
      · have hs : stripSign (c :: rest) = rest := by simp [stripSign, h45]
        rw [hs] at h
        simp only [parseInt, h43, h45, if_true, if_false]
        exact key true rest h
      · have hs : stripSign (c :: rest) = c :: rest := by simp [stripSign, h43, h45]
        rw [hs] at h
        simp only [parseInt, h43, h45, if_false]
        exact key false (c :: rest) h

/-- Once the digits read denote more than `maxVal`, the loop of `ParseUint`
stops with the range error, whatever follows. -/
theorem parseUintLoop_overflow (base maxVal : Nat) (hb2 : 2 ≤ base) (hb : base ≤ 10)
    (hmax : maxVal < 2 ^ 64) (tail : List Nat) :
    ∀ (ds : List Nat) (n : Nat), n ≤ maxVal → (∀ x ∈ ds, digitBelow base x) →
      maxVal < ds.foldl (fun acc c => acc * base + (c - 48)) n →
      parseUintLoop base maxVal ((2 ^ 64 - 1) / base + 1) (ds ++ tail) n
        = (maxVal, some .range) := by
  intro ds
  induction ds with
  | nil => intro n hn _ hv; simp only [List.foldl_nil] at hv; omega
  | cons c cs ih =>
    intro n hn hd hv
    have hc := digitVal_of_digitBelow hb (hd c (by simp))
    have hcs : ∀ x ∈ cs, digitBelow base x := fun x hx => hd x (by simp [hx])
    have hbd : ¬ (base ≤ c - 48) := by omega
    simp only [List.foldl_cons] at hv
    by_cases hcut : (2 ^ 64 - 1) / base + 1 ≤ n
    · simp only [List.cons_append, parseUintLoop, hc.1, hbd, hcut, if_false, if_true]
    · have hle : n ≤ (2 ^ 64 - 1) / base := by omega
      have hmul : n * base ≤ 2 ^ 64 - 1 := (Nat.le_div_iff_mul_le (by omega)).mp hle
      have hm : (n * base) % 2 ^ 64 = n * base := Nat.mod_eq_of_lt (by omega)
      by_cases hstep : n * base + (c - 48) ≤ maxVal
      · have hn1 : (n * base + (c - 48)) % 2 ^ 64 = n * base + (c - 48) :=
          Nat.mod_eq_of_lt (by omega)
        have hno : ¬ (n * base + (c - 48) < n * base ∨ maxVal < n * base + (c - 48)) := by
          omega
        simp only [List.cons_append, parseUintLoop, hc.1, hbd, hcut, hm, hn1, hno, if_false]
        exact ih (n * base + (c - 48)) hstep hcs hv
      · have hyes : (n * base + (c - 48)) % 2 ^ 64 < n * base ∨
            maxVal < (n * base + (c - 48)) % 2 ^ 64 := by
          by_cases hlt : n * base + (c - 48) < 2 ^ 64
          · right
            rw [Nat.mod_eq_of_lt hlt]
            omega
          · left
            have hsub : (n * base + (c - 48)) % 2 ^ 64 = n * base + (c - 48) - 2 ^ 64 := by
              rw [Nat.mod_eq_sub_mod (by omega)]
              exact Nat.mod_eq_of_lt (by omega)
            rw [hsub]
            omega
        simp only [List.cons_append, parseUintLoop, hc.1, hbd, hcut, hm, hyes, if_false, if_true]

theorem parseUint_overflow (base bitSize : Nat) (hb2 : 2 ≤ base) (hb : base ≤ 10)
    (hbits : bitSize ≤ 64) (ds tail : List Nat) (hd : ∀ x ∈ ds, digitBelow base x)
    (hv : 2 ^ bitSize - 1 < digitsValue base ds) :
    parseUint (ds ++ tail) base bitSize = (2 ^ bitSize - 1, some .range) := by
  have hpow : 2 ^ bitSize ≤ 2 ^ 64 := Nat.pow_le_pow_right (by omega) hbits
  have hpos : 0 < 2 ^ bitSize := Nat.two_pow_pos bitSize
  have hmax : 2 ^ bitSize - 1 < 2 ^ 64 := by omega
  have h := parseUintLoop_overflow base (2 ^ bitSize - 1) hb2 hb hmax tail ds 0 (by omega) hd hv
  cases hds : ds ++ tail with
  | nil =>
    have : ds = [] := (List.append_eq_nil.mp hds).1
    rw [this] at hv
    simp [digitsValue] at hv
  | cons a as =>
    rw [hds] at h
    exact h

/-- What `ParseInt` makes of the unsigned part once `ParseUint` has read it. -/
theorem parseIntSigned_value (neg : Bool) (s : List Nat) (base bitSize un : Nat)
    (e : Option NumError) (hu : parseUint s base bitSize = (un, e)) (he : e ≠ some .invalid) :
    (parseIntSigned neg s base bitSize).1 = signedValue bitSize neg un := by
  unfold parseIntSigned signedValue
  rw [hu]
  cases e with
  | none =>
    cases neg <;> simp only <;> split_ifs <;> first | rfl | omega | simp_all
  | some err =>
    cases err with
    | invalid => exact absurd rfl he
    | range =>
      cases neg <;> simp only <;> split_ifs <;> first | rfl | omega | simp_all

/-- A field that is, after one optional sign, a run of digits (or starts with
a run of digits that is out of range already) is read as the signed value of
the digits, cut to the nearest bound. -/
theorem parseInt_signed_digits (base bitSize : Nat) (hb2 : 2 ≤ base) (hb : base ≤ 10)
    (hbits2 : 2 ≤ bitSize) (hbits : bitSize ≤ 64) (field ds tail : List Nat)
    (hstrip : stripSign field = ds ++ tail) (hne : ds ≠ [])
    (hd : ∀ x ∈ ds, digitBelow base x)
    (ht : tail = [] ∨ 2 ^ bitSize - 1 < digitsValue base ds) :
    (parseInt field base bitSize).1 = signedValue bitSize (isNegative field) (digitsValue base ds) := by
  have hdouble : 2 ^ bitSize = 2 * 2 ^ (bitSize - 1) := by
    have : bitSize = (bitSize - 1) + 1 := by omega
    conv_lhs => rw [this, Nat.pow_succ]
    omega
  have hhalf : 2 ≤ 2 ^ (bitSize - 1) := by
    have : 2 ^ 1 ≤ 2 ^ (bitSize - 1) := Nat.pow_le_pow_right (by omega) (by omega)
    simpa using this
  have key : ∀ neg : Bool, (parseIntSigned neg (ds ++ tail) base bitSize).1
      = signedValue bitSize neg (digitsValue base ds) := by
    intro neg
    by_cases hv : digitsValue base ds ≤ 2 ^ bitSize - 1
    · have htail : tail = [] := by
        rcases ht with h | h
        · exact h
        · omega
      subst htail
      rw [List.append_nil]
      exact parseIntSigned_value neg ds base bitSize _ none
        (parseUint_digits base bitSize hb2 hb hbits ds hne hd hv) (by simp)
    · have hov := parseUint_overflow base bitSize hb2 hb hbits ds tail hd (by omega)
      rw [parseIntSigned_value neg (ds ++ tail) base bitSize _ (some .range) hov (by simp)]
      unfold signedValue
      cases neg <;> simp only [Bool.false_eq_true, ↓reduceIte] <;> split_ifs <;>
        first | rfl | omega
  cases field with
  | nil =>
    simp only [stripSign] at hstrip
    have : ds = [] := (List.append_eq_nil.mp hstrip.symm).1
    exact absurd this hne
  | cons c rest =>
    by_cases h43 : c = 43
    · have hs : stripSign (c :: rest) = rest := by simp [stripSign, h43]
      rw [hs] at hstrip
      have hneg : isNegative (c :: rest) = false := by simp [isNegative, h43]
      rw [hneg]
      simp only [parseInt, h43, if_true]
      rw [hstrip]
      exact key false
    · by_cases h45 : c = 45
      · have hs : stripSign (c :: rest) = rest := by simp [stripSign, h45]
        rw [hs] at hstrip
        have hneg : isNegative (c :: rest) = true := by simp [isNegative, h45]
        rw [hneg]
        simp only [parseInt, h43, h45, if_true, if_false]
        rw [hstrip]
        exact key true
      · have hs : stripSign (c :: rest) = c :: rest := by simp [stripSign, h43, h45]
        rw [hs] at hstrip
        have hneg : isNegative (c :: rest) = false := by simp [isNegative, h45]
        rw [hneg]
        simp only [parseInt, h43, h45, if_false]
        rw [hstrip]
        exact key false

theorem toUint32_small (v : Nat) (h : v < 2 ^ 32) : toUint32 (v : Int) = v := by
  unfold toUint32
  have : ((v : Int) % 2 ^ 32) = (v : Int) := Int.emod_eq_of_lt (by omega) (by exact_mod_cast h)
  rw [this]; simp

theorem toUint64_small (v : Nat) (h : v < 2 ^ 64) : toUint64 (v : Int) = v := by
  unfold toUint64
  have : ((v : Int) % 2 ^ 64) = (v : Int) := Int.emod_eq_of_lt (by omega) (by exact_mod_cast h)
  rw [this]; simp

/-- What lines 57-79 return for a header text `X<m> <s> <n>` closed by a newline. -/
theorem parseControl_header (X : Nat) (m s n : List Nat) (hX : X = 67 ∨ X = 68)
    (hm : m ≠ []) (hmd : ∀ c ∈ m, digitBelow 8 c) (hmv : digitsValue 8 m < 2 ^ 31)
    (hs : s ≠ []) (hsd : ∀ c ∈ s, digitBelow 10 c) (hsv : digitsValue 10 s < 2 ^ 63) :
    parseControl ((X :: m) ++ 32 :: (s ++ 32 :: (n ++ [10]))) =
      .ok ⟨if X = 67 then "file" else "dir", digitsValue 8 m, digitsValue 10 s, n⟩ := by
  have h0 : 32 ∉ X :: m := by
    intro h
    rcases List.mem_cons.mp h with e | e
    · rcases hX with hX | hX <;> omega
    · exact absurd (hmd 32 e).1 (by decide)
  have h1 : 32 ∉ s := fun e => absurd (hsd 32 e).1 (by decide)
  have hmode := parseInt_digits 8 32 (by decide) (by decide) (by decide) (by decide) m hm hmd hmv
  have hsize := parseInt_digits 10 64 (by decide) (by decide) (by decide) (by decide) s hs hsd hsv
  have hm32 : toUint32 (digitsValue 8 m : Int) = digitsValue 8 m :=
    toUint32_small _ (by omega)
  have hs64 : toUint64 (digitsValue 10 s : Int) = digitsValue 10 s :=
    toUint64_small _ (by omega)
  have hp2 : n ++ [10] ≠ [] := by simp
  unfold parseControl
  rw [splitN_three (X :: m) s (n ++ [10]) h0 h1]
  simp only [hmode, hsize, hm32, hs64]
  cases hn : n ++ [10] with
  | nil => exact absurd hn hp2
  | cons a as =>
    simp only [← hn, List.dropLast_concat]
    rcases hX with hX | hX <;> simp [hX]

/-! ## Lemmas on the channel -/

theorem recv_cons (burst : List Nat) (more : List (List Nat)) (n : Nat) (h : burst ≠ []) :
    recv (burst :: more) n = some (burst.take n, burst.drop n :: more) := by
  cases burst with
  | nil => exact absurd rfl h
  | cons b bs => rfl

theorem Channel.read_cons (burst : List Nat) (more : List (List Nat)) (w : List Nat) (n : Nat)
    (h : burst ≠ []) (hn : n ≠ 0) :
    Channel.read ⟨burst :: more, w⟩ n = (some (burst.take n), ⟨burst.drop n :: more, w⟩) := by
  simp [Channel.read, hn, recv_cons burst more n h]

theorem Channel.read_written (c : Channel) (n : Nat) : (c.read n).2.written = c.written := by
  unfold Channel.read
  by_cases hn : n = 0
  · simp [hn]
  · simp only [hn, if_false]
    cases recv c.incoming n with
    | none => rfl
    | some r => rfl

theorem readStringLoop_written (delim : Nat) (fuel : Nat) (c : Channel) (acc : List Nat) :
    (readStringLoop delim fuel c acc).2.2.written = c.written := by
  induction fuel generalizing c acc with
  | zero => rfl
  | succ fuel ih =>
    unfold readStringLoop
    have hw := Channel.read_written c (4096 - acc.length % 4096)
    rcases hr : c.read (4096 - acc.length % 4096) with ⟨data, c1⟩
    rw [hr] at hw
    cases data with
    | none => exact hw
    | some data =>
      simp only
      cases throughDelim delim data with
      | none => simp only; rw [ih]; exact hw
      | some line => exact hw

theorem throughDelim_none (delim : Nat) (a : List Nat) (h : delim ∉ a) :
    throughDelim delim a = none := by
  induction a with
  | nil => rfl
  | cons c cs ih =>
    have hc : c ≠ delim := fun e => h (by simp [e])
    have hcs : delim ∉ cs := fun e => h (by simp [e])
    simp [throughDelim, hc, ih hcs]

theorem throughDelim_append (delim : Nat) (a rest : List Nat) (h : delim ∉ a) :
    throughDelim delim (a ++ delim :: rest) = some (a ++ [delim]) := by
  induction a with
  | nil => simp [throughDelim]
  | cons c cs ih =>
    have hc : c ≠ delim := fun e => h (by simp [e])
    have hcs : delim ∉ cs := fun e => h (by simp [e])
    simp [throughDelim, hc, ih hcs]

/-- Reading a text closed by the delimiter from the head burst: the loop of
`ReadString` returns exactly that text, with no error. -/
theorem readStringLoop_line (delim : Nat) (extra : List Nat) (more : List (List Nat))
    (w : List Nat) :
    ∀ (fuel : Nat) (body acc : List Nat), delim ∉ body → body.length < fuel →
      ∃ c1, readStringLoop delim fuel ⟨(body ++ delim :: extra) :: more, w⟩ acc
        = (acc ++ body ++ [delim], false, c1) := by
  intro fuel
  induction fuel with
  | zero => intro body acc _ hlen; exact absurd hlen (Nat.not_lt_zero _)
  | succ fuel ih =>
    intro body acc hbody hlen
    have hk : 4096 - acc.length % 4096 ≠ 0 := by
      have := Nat.mod_lt acc.length (show 0 < 4096 by decide)
      omega
    have hne : body ++ delim :: extra ≠ [] := by simp
    unfold readStringLoop
    rw [Channel.read_cons _ more w _ hne hk]
    simp only
    by_cases hshort : body.length < 4096 - acc.length % 4096
    · obtain ⟨r, hr⟩ : ∃ r, 4096 - acc.length % 4096 = body.length + (r + 1) :=
        ⟨4096 - acc.length % 4096 - body.length - 1, by omega⟩
      refine ⟨⟨(body ++ delim :: extra).drop (4096 - acc.length % 4096) :: more, w⟩, ?_⟩
      have htake : (body ++ delim :: extra).take (4096 - acc.length % 4096)
          = body ++ delim :: extra.take r := by
        rw [hr, List.take_append, List.take_succ_cons]
      rw [htake, throughDelim_append delim body _ hbody]
      simp
    · have htake : (body ++ delim :: extra).take (4096 - acc.length % 4096)
          = body.take (4096 - acc.length % 4096) := by
        rw [List.take_append_eq_append_take]
        have h2 : 4096 - acc.length % 4096 - body.length = 0 := by omega
        rw [h2]; simp
      have hdrop : (body ++ delim :: extra).drop (4096 - acc.length % 4096)
          = body.drop (4096 - acc.length % 4096) ++ delim :: extra := by
        rw [List.drop_append_eq_append_drop]
        have h2 : 4096 - acc.length % 4096 - body.length = 0 := by omega
        rw [h2]; simp
      have hnot : delim ∉ body.take (4096 - acc.length % 4096) :=
        fun e => hbody (List.mem_of_mem_take e)
      have hnot2 : delim ∉ body.drop (4096 - acc.length % 4096) :=
        fun e => hbody (List.mem_of_mem_drop e)
      rw [htake, hdrop, throughDelim_none delim _ hnot]
      simp only
      have hl : (body.drop (4096 - acc.length % 4096)).length < fuel := by
        rw [List.length_drop]; omega
      obtain ⟨c1, hc1⟩ := ih (body.drop (4096 - acc.length % 4096))
        (acc ++ body.take (4096 - acc.length % 4096)) hnot2 hl
      refine ⟨c1, ?_⟩
      rw [hc1]
      simp [List.append_assoc]

/-- The text `readProtocolControl` takes apart when the head burst starts with
a line closed by a newline is that line. -/
theorem readProtocolControl_line (body extra : List Nat) (more : List (List Nat))
    (w : List Nat) (hbody : 10 ∉ body) :
    (readProtocolControl ⟨(body ++ 10 :: extra) :: more, w⟩).2 = parseControl (body ++ [10]) := by
  unfold readProtocolControl readString
  have hlen : body.length
      < (⟨(body ++ 10 :: extra) :: more, w⟩ : Channel).pending + 1 := by
    simp [Channel.pending]
    omega
  obtain ⟨c1, hc1⟩ := readStringLoop_line 10 extra more w _ body [] hbody hlen
  rw [hc1]
  simp

theorem recv_pending (n : Nat) (hn : n ≠ 0) :
    ∀ (inc : List (List Nat)) (data : List Nat) (rest : List (List Nat)),
      recv inc n = some (data, rest) → rest.flatten.length < inc.flatten.length := by
  intro inc
  induction inc with
  | nil => intro data rest h; simp [recv] at h
  | cons burst more ih =>
    intro data rest h
    cases burst with
    | nil =>
      simp only [recv] at h
      simpa using ih data rest h
    | cons b bs =>
      simp only [recv, Option.some.injEq, Prod.mk.injEq] at h
      obtain ⟨_, h2⟩ := h
      subst h2
      simp only [List.flatten_cons, List.length_append, List.length_drop, List.length_cons]
      omega

/-- The fuel `readString` starts with is never used up: more fuel gives the same result. -/
theorem readStringLoop_fuel (delim : Nat) :
    ∀ (fuel : Nat) (c : Channel) (acc : List Nat), c.pending < fuel →
      readStringLoop delim (fuel + 1) c acc = readStringLoop delim fuel c acc := by
  intro fuel
  induction fuel with
  | zero => intro c acc h; exact absurd h (Nat.not_lt_zero _)
  | succ fuel ih =>
    intro c acc h
    have hk : 4096 - acc.length % 4096 ≠ 0 := by
      have := Nat.mod_lt acc.length (show 0 < 4096 by decide)
      omega
    rw [readStringLoop, readStringLoop]
    rcases hr : c.read (4096 - acc.length % 4096) with ⟨data, c1⟩
    cases data with
    | none => rfl
    | some data =>
      simp only
      cases throughDelim delim data with
      | some line => rfl
      | none =>
        simp only
        apply ih
        have hc1 : c1.pending < c.pending := by
          unfold Channel.read at hr
          simp only [hk, if_false] at hr
          cases hrecv : recv c.incoming (4096 - acc.length % 4096) with
          | none => rw [hrecv] at hr; simp at hr
          | some r =>
            rw [hrecv] at hr
            simp only [Prod.mk.injEq, Option.some.injEq] at hr
            obtain ⟨_, h2⟩ := hr
            subst h2
            exact recv_pending _ hk c.incoming r.1 r.2 hrecv
        omega

/-! ## Lemmas on the file system -/

theorem FS.get_put_same (fs : FS) (p : Path) (n : Node) : (fs.put p n).get p = some n := by
  simp [FS.put, FS.get]

theorem FS.put_put (fs : FS) (p : Path) (a b : Node) : (fs.put p a).put p b = fs.put p b := by
  simp [FS.put, List.filter_filter]

theorem overwriteAt_append (old : List Nat) (off : Nat) (d1 d2 : List Nat) :
    overwriteAt (overwriteAt old off d1) (off + d1.length) d2 = overwriteAt old off (d1 ++ d2) := by
  have hA : (old.take off ++ List.replicate (off - old.length) 0).length = off := by
    simp only [List.length_append, List.length_take, List.length_replicate]
    omega
  generalize hAdef : old.take off ++ List.replicate (off - old.length) 0 = A at hA
  have h1 : overwriteAt old off d1 = (A ++ d1) ++ old.drop (off + d1.length) := by
    simp [overwriteAt, hAdef]
  have h2 : overwriteAt old off (d1 ++ d2) = A ++ (d1 ++ d2) ++ old.drop (off + (d1 ++ d2).length) := by
    simp [overwriteAt, hAdef]
  have hlen : (A ++ d1).length = off + d1.length := by simp [hA]
  rw [h2, h1]
  unfold overwriteAt
  have ht : ((A ++ d1) ++ old.drop (off + d1.length)).take (off + d1.length) = A ++ d1 := by
    rw [← hlen, List.take_left']
    rfl
  have hd : ((A ++ d1) ++ old.drop (off + d1.length)).drop (off + d1.length + d2.length)
      = old.drop (off + (d1 ++ d2).length) := by
    rw [show off + d1.length + d2.length = (A ++ d1).length + d2.length by omega,
      List.drop_append, List.drop_drop, List.length_append]
    congr 1
    omega
  have hz : off + d1.length - ((A ++ d1) ++ old.drop (off + d1.length)).length = 0 := by
    rw [List.length_append, hlen]; omega
  rw [ht, hd, hz]
  simp

theorem fileWrite_append (fs : FS) (p : Path) (off : Nat) (d1 d2 : List Nat) :
    fileWrite (fileWrite fs p off d1) p (off + d1.length) d2 = fileWrite fs p off (d1 ++ d2) := by
  cases h : fs.get p with
  | none => simp [fileWrite, h]
  | some n =>
    cases n with
    | file m old =>
      simp [fileWrite, h, FS.get_put_same, FS.put_put, overwriteAt_append]
    | dir m => simp [fileWrite, h]
    | denied => simp [fileWrite, h]

/-! ## Lemmas on the loop of `readFile` -/

/-- One round of the loop that fills its buffer and does not reach `size`. -/
theorem readFileLoop_round (path : Path) (size fuel : Nat) (chunk tail : List Nat)
    (more : List (List Nat)) (w : List Nat) (fs : FS) (off nn : Nat)
    (hk : chunk.length = size % 1024) (hpos : 0 < size % 1024)
    (hnn : nn + chunk.length < size) (hsize : size < 2 ^ 64) :
    readFileLoop path size (fuel + 1) ⟨(chunk ++ tail) :: more, w⟩ fs off nn =
      readFileLoop path size fuel ⟨tail :: more, w⟩ (fileWrite fs path off chunk)
        (off + chunk.length) (nn + chunk.length) := by
  have hne : chunk ++ tail ≠ [] := by
    intro e
    have : (chunk ++ tail).length = 0 := by rw [e]; rfl
    rw [List.length_append] at this
    omega
  rw [readFileLoop, Channel.read_cons _ more w _ hne (by omega), ← hk, List.take_left', List.drop_left' rfl]
  · simp only
    have hmod : (nn + chunk.length) % 2 ^ 64 = nn + chunk.length := Nat.mod_eq_of_lt (by omega)
    rw [hmod, if_neg (by omega)]
  · rfl

/-- Rounds that fill the buffer and stay below `size`: `j + 1` of them consume
`(j + 1) * (size % 1024)` bytes and write them to the file in order. -/
theorem readFileLoop_rounds (path : Path) (size : Nat) (hpos : 0 < size % 1024)
    (hsize : size < 2 ^ 64) (tail : List Nat) (more : List (List Nat)) (w : List Nat) :
    ∀ (j : Nat) (chunk : List Nat) (fs : FS) (off nn fuel : Nat),
      chunk.length = (size % 1024) * (j + 1) → nn + chunk.length < size →
      readFileLoop path size (fuel + (j + 1)) ⟨(chunk ++ tail) :: more, w⟩ fs off nn =
        readFileLoop path size fuel ⟨tail :: more, w⟩ (fileWrite fs path off chunk)
          (off + chunk.length) (nn + chunk.length) := by
  intro j
  induction j with
  | zero =>
    intro chunk fs off nn fuel hlen hnn
    exact readFileLoop_round path size fuel chunk tail more w fs off nn (by omega) hpos hnn hsize
  | succ j ih =>
    intro chunk fs off nn fuel hlen hnn
    have hmul : size % 1024 * (j + 1 + 1) = size % 1024 * (j + 1) + size % 1024 := by ring
    have hsplit : chunk = chunk.take (size % 1024) ++ chunk.drop (size % 1024) :=
      (List.take_append_drop _ _).symm
    have hl1 : (chunk.take (size % 1024)).length = size % 1024 := by
      rw [List.length_take]; omega
    have hl2 : (chunk.drop (size % 1024)).length = size % 1024 * (j + 1) := by
      rw [List.length_drop]; omega
    have hstep := readFileLoop_round path size (fuel + (j + 1)) (chunk.take (size % 1024))
      (chunk.drop (size % 1024) ++ tail) more w fs off nn hl1 hpos (by omega) hsize
    rw [← List.append_assoc, ← hsplit] at hstep
    rw [show fuel + (j + 1 + 1) = fuel + (j + 1) + 1 from rfl, hstep,
      ih (chunk.drop (size % 1024)) _ _ _ fuel hl2 (by omega), fileWrite_append, ← hsplit]
    congr 1
    · rw [hl1, hl2, hlen]; omega
    · rw [hl1, hl2, hlen]; omega

/-- The round that reaches `size` ends the loop. -/
theorem readFileLoop_last (path : Path) (size fuel : Nat) (chunk tail : List Nat)
    (more : List (List Nat)) (w : List Nat) (fs : FS) (off nn : Nat)
    (hk : chunk.length = size % 1024) (hpos : 0 < size % 1024)
    (hnn : nn + chunk.length = size) (hsize : size < 2 ^ 64) :
    readFileLoop path size (fuel + 1) ⟨(chunk ++ tail) :: more, w⟩ fs off nn =
      some (none, ⟨tail :: more, w⟩, fileWrite fs path off chunk) := by
  have hne : chunk ++ tail ≠ [] := by
    intro e
    have : (chunk ++ tail).length = 0 := by rw [e]; rfl
    rw [List.length_append] at this
    omega
  rw [readFileLoop, Channel.read_cons _ more w _ hne (by omega), ← hk, List.take_left', List.drop_left' rfl]
  · simp only
    have hmod : (nn + chunk.length) % 2 ^ 64 = nn + chunk.length := Nat.mod_eq_of_lt (by omega)
    rw [hmod, if_pos hnn]
  · rfl

/-- When `size % 1024` is positive and divides `size`, and the head burst
starts with `size` bytes of content, the loop consumes exactly the content and
writes it to the file in order. -/
theorem readFileLoop_exact (path : Path) (size : Nat) (hpos : 0 < size % 1024)
    (hsize : size < 2 ^ 64) (j : Nat) (hdiv : size = size % 1024 * (j + 1))
    (content tail : List Nat) (more : List (List Nat)) (w : List Nat) (fs : FS) (fuel : Nat)
    (hlen : content.length = size) :
    readFileLoop path size (fuel + (j + 1)) ⟨(content ++ tail) :: more, w⟩ fs 0 0 =
      some (none, ⟨tail :: more, w⟩, fileWrite fs path 0 content) := by
  cases j with
  | zero =>
    exact readFileLoop_last path size fuel content tail more w fs 0 0 (by omega) hpos
      (by omega) hsize
  | succ j =>
    have hmul : size % 1024 * (j + 1 + 1) = size % 1024 * (j + 1) + size % 1024 :=
      Nat.mul_succ _ _
    have hsplit : content = content.take (size % 1024 * (j + 1))
        ++ content.drop (size % 1024 * (j + 1)) := (List.take_append_drop _ _).symm
    have hl1 : (content.take (size % 1024 * (j + 1))).length = size % 1024 * (j + 1) := by
      rw [List.length_take]; omega
    have hl2 : (content.drop (size % 1024 * (j + 1))).length = size % 1024 := by
      rw [List.length_drop]; omega
    have hrounds := readFileLoop_rounds path size hpos hsize
      (content.drop (size % 1024 * (j + 1)) ++ tail) more w j
      (content.take (size % 1024 * (j + 1))) fs 0 0 (fuel + 1) hl1 (by omega)
    rw [← List.append_assoc, ← hsplit] at hrounds
    have hlast := readFileLoop_last path size fuel (content.drop (size % 1024 * (j + 1))) tail
      more w (fileWrite fs path 0 (content.take (size % 1024 * (j + 1))))
      (0 + (content.take (size % 1024 * (j + 1))).length)
      (0 + (content.take (size % 1024 * (j + 1))).length) hl2 hpos (by omega) hsize
    rw [fileWrite_append, ← hsplit] at hlast
    rw [show fuel + (j + 1 + 1) = fuel + 1 + (j + 1) by omega, hrounds, hlast]

/-- For the size zero the loop ends after one read of no bytes. -/
theorem readFileLoop_size_zero (path : Path) (fuel : Nat) (conn : Channel) (fs : FS) :
    readFileLoop path 0 (fuel + 1) conn fs 0 0 = some (none, conn, fileWrite fs path 0 []) := by
  simp [readFileLoop, Channel.read]

/-- With a request of zero bytes the count stays at zero and the loop never ends. -/
theorem readFileLoop_zero_request (path : Path) (size : Nat) (hk : size % 1024 = 0)
    (hsize : size ≠ 0) :
    ∀ (fuel : Nat) (conn : Channel) (fs : FS) (off : Nat),
      readFileLoop path size fuel conn fs off 0 = none := by
  intro fuel
  induction fuel with
  | zero => intro conn fs off; rfl
  | succ fuel ih =>
    intro conn fs off
    have hne : ¬ (0 = size) := fun e => hsize e.symm
    simp only [readFileLoop, hk, Channel.read, if_true, List.length_nil, Nat.add_zero,
      Nat.zero_mod, hne, if_false]
    exact ih conn _ off

/-- The loop of `readFile` writes nothing to the channel. -/
theorem readFileLoop_written (path : Path) (size : Nat) :
    ∀ (fuel : Nat) (conn : Channel) (fs : FS) (off nn : Nat) (e : Option GoError)
      (c1 : Channel) (fs1 : FS),
      readFileLoop path size fuel conn fs off nn = some (e, c1, fs1) →
      c1.written = conn.written := by
  intro fuel
  induction fuel with
  | zero => intro conn fs off nn e c1 fs1 h; simp [readFileLoop] at h
  | succ fuel ih =>
    intro conn fs off nn e c1 fs1 h
    have hw := Channel.read_written conn (size % 1024)
    rw [readFileLoop] at h
    rcases hr : conn.read (size % 1024) with ⟨data, c⟩
    rw [hr] at h hw
    cases data with
    | none =>
      simp only [Option.some.injEq, Prod.mk.injEq] at h
      rw [← h.2.1]; exact hw
    | some data =>
      simp only at h
      split at h
      · simp only [Option.some.injEq, Prod.mk.injEq] at h
        rw [← h.2.1]; exact hw
      · rw [ih _ _ _ _ _ _ _ h]; exact hw

/-- What `readProtocolControl` returns when the head burst of the channel
starts with a header line `X<m> <s> <n>` closed by a newline. -/
theorem controlOfHeaderLine (X : Nat) (m s n extra : List Nat)
    (more : List (List Nat)) (w : List Nat) (hX : X = 67 ∨ X = 68)
    (hm : m ≠ []) (hmd : ∀ c ∈ m, digitBelow 8 c) (hmv : digitsValue 8 m < 2 ^ 31)
    (hs : s ≠ []) (hsd : ∀ c ∈ s, digitBelow 10 c) (hsv : digitsValue 10 s < 2 ^ 63)
    (hn : 10 ∉ n) :
    (readProtocolControl ⟨((X :: m) ++ 32 :: (s ++ 32 :: (n ++ 10 :: extra))) :: more, w⟩).2 =
      .ok ⟨if X = 67 then "file" else "dir", digitsValue 8 m, digitsValue 10 s, n⟩ := by
  have hbody : 10 ∉ (X :: m) ++ 32 :: (s ++ 32 :: n) := by
    intro h
    simp only [List.mem_append, List.mem_cons] at h
    rcases h with (h | h) | h | h | h | h
    · rcases hX with hX | hX <;> omega
    · exact absurd (hmd 10 h).1 (by decide)
    · omega
    · exact absurd (hsd 10 h).1 (by decide)
    · omega
    · exact hn h
  have e1 : (X :: m) ++ 32 :: (s ++ 32 :: (n ++ 10 :: extra))
      = ((X :: m) ++ 32 :: (s ++ 32 :: n)) ++ 10 :: extra := by simp
  have e2 : ((X :: m) ++ 32 :: (s ++ 32 :: n)) ++ [10]
      = (X :: m) ++ 32 :: (s ++ 32 :: (n ++ [10])) := by simp
  rw [e1, readProtocolControl_line _ extra more w hbody, e2]
  exact parseControl_header X m s n hX hm hmd hmv hs hsd hsv

/-- The only byte `readProtocolControl` writes is one zero, after the read. -/
theorem readProtocolControl_written (conn : Channel) :
    (readProtocolControl conn).1.written = conn.written ++ [0] := by
  unfold readProtocolControl readString
  have hw := readStringLoop_written 10 (conn.pending + 1) conn []
  rcases hr : readStringLoop 10 (conn.pending + 1) conn [] with ⟨control, err, c1⟩
  rw [hr] at hw
  simp only [Channel.write]
  rw [show c1.written = conn.written from hw]

/-- Every text is of one of three kinds: a byte that is no digit comes after
digits within range, or all of it is digits within range, or it starts with
digits that are out of range. -/
theorem digits_then_rest (base maxVal : Nat) (t : List Nat) :
    ∀ pre : List Nat, (∀ x ∈ pre, digitBelow base x) → digitsValue base pre ≤ maxVal →
      (∃ ds c rest, pre ++ t = ds ++ c :: rest ∧ (∀ x ∈ ds, digitBelow base x) ∧
        digitsValue base ds ≤ maxVal ∧ ¬ digitBelow base c) ∨
      ((∀ x ∈ pre ++ t, digitBelow base x) ∧ digitsValue base (pre ++ t) ≤ maxVal) ∨
      (∃ ds tail, pre ++ t = ds ++ tail ∧ (∀ x ∈ ds, digitBelow base x) ∧
        maxVal < digitsValue base ds) := by
  induction t with
  | nil =>
    intro pre hpre hv
    right; left
    rw [List.append_nil]
    exact ⟨hpre, hv⟩
  | cons c cs ih =>
    intro pre hpre hv
    by_cases hc : digitBelow base c
    · have hpre1 : ∀ x ∈ pre ++ [c], digitBelow base x := by
        intro x hx
        rcases List.mem_append.mp hx with h | h
        · exact hpre x h
        · rw [List.mem_singleton.mp h]; exact hc
      have happ : pre ++ c :: cs = (pre ++ [c]) ++ cs := by simp
      by_cases hv1 : digitsValue base (pre ++ [c]) ≤ maxVal
      · rw [happ]
        exact ih (pre ++ [c]) hpre1 hv1
      · right; right
        exact ⟨pre ++ [c], cs, happ, hpre1, by omega⟩
    · left
      exact ⟨pre, c, cs, rfl, hpre, hv, hc⟩

/-- A numeric field is malformed, or it is (after its sign) a run of digits or
starts with a run of digits that is out of range. -/
theorem numeric_field_cases (base maxVal : Nat) (field : List Nat) :
    Malformed base maxVal field ∨
      ∃ ds tail, stripSign field = ds ++ tail ∧ ds ≠ [] ∧ (∀ x ∈ ds, digitBelow base x) ∧
        (tail = [] ∨ maxVal < digitsValue base ds) := by
  have h := digits_then_rest base maxVal (stripSign field) [] (by simp) (by simp [digitsValue])
  simp only [List.nil_append] at h
  rcases h with ⟨ds, c, rest, h1, h2, h3, h4⟩ | ⟨h1, h2⟩ | ⟨ds, tail, h1, h2, h3⟩
  · exact Or.inl (Or.inr ⟨ds, c, rest, h1, h2, h3, h4⟩)
  · by_cases he : stripSign field = []
    · exact Or.inl (Or.inl he)
    · exact Or.inr ⟨stripSign field, [], by simp, he, h1, Or.inl rfl⟩
  · refine Or.inr ⟨ds, tail, h1, ?_, h2, Or.inr h3⟩
    intro he
    rw [he] at h3
    simp [digitsValue] at h3

/-- The mode and the size of a `C` or `D` line of three fields, by the shape of
the two numeric fields. -/
theorem parseControl_numeric (control : List Nat) (lead : Nat)
    (modeText sizeText p2 : List Nat)
    (hsplit : splitN 32 3 control = [lead :: modeText, sizeText, p2])
    (hlead : lead = 67 ∨ lead = 68) (hp2 : p2 ≠ []) :
    ∃ r, parseControl control = .ok r ∧
      (Malformed 8 (2 ^ 32 - 1) modeText → r.mode = 0) ∧
      (Malformed 10 (2 ^ 64 - 1) sizeText → r.size = 0) ∧
      (∀ ds tail, stripSign modeText = ds ++ tail → ds ≠ [] → (∀ x ∈ ds, digitBelow 8 x) →
        (tail = [] ∨ 2 ^ 32 - 1 < digitsValue 8 ds) →
        r.mode = toUint32 (signedValue 32 (isNegative modeText) (digitsValue 8 ds))) ∧
      (∀ ds tail, stripSign sizeText = ds ++ tail → ds ≠ [] → (∀ x ∈ ds, digitBelow 10 x) →
        (tail = [] ∨ 2 ^ 64 - 1 < digitsValue 10 ds) →
        r.size = toUint64 (signedValue 64 (isNegative sizeText) (digitsValue 10 ds))) := by
  have hmode : Malformed 8 (2 ^ 32 - 1) modeText → toUint32 (parseInt modeText 8 32).1 = 0 := by
    intro h
    rw [parseInt_malformed 8 32 (by decide) (by decide) (by decide) modeText h]
    rfl
  have hsize : Malformed 10 (2 ^ 64 - 1) sizeText → toUint64 (parseInt sizeText 10 64).1 = 0 := by
    intro h
    rw [parseInt_malformed 10 64 (by decide) (by decide) (by decide) sizeText h]
    rfl
  have hmode2 : ∀ ds tail, stripSign modeText = ds ++ tail → ds ≠ [] →
      (∀ x ∈ ds, digitBelow 8 x) → (tail = [] ∨ 2 ^ 32 - 1 < digitsValue 8 ds) →
      toUint32 (parseInt modeText 8 32).1
        = toUint32 (signedValue 32 (isNegative modeText) (digitsValue 8 ds)) := by
    intro ds tail h1 h2 h3 h4
    rw [parseInt_signed_digits 8 32 (by decide) (by decide) (by decide) (by decide)
      modeText ds tail h1 h2 h3 h4]
  have hsize2 : ∀ ds tail, stripSign sizeText = ds ++ tail → ds ≠ [] →
      (∀ x ∈ ds, digitBelow 10 x) → (tail = [] ∨ 2 ^ 64 - 1 < digitsValue 10 ds) →
      toUint64 (parseInt sizeText 10 64).1
        = toUint64 (signedValue 64 (isNegative sizeText) (digitsValue 10 ds)) := by
    intro ds tail h1 h2 h3 h4
    rw [parseInt_signed_digits 10 64 (by decide) (by decide) (by decide) (by decide)
      sizeText ds tail h1 h2 h3 h4]
  unfold parseControl
  rw [hsplit]
  cases p2 with
  | nil => exact absurd rfl hp2
  | cons a as =>
    rcases hlead with hl | hl
    · subst hl
      exact ⟨⟨"file", toUint32 (parseInt modeText 8 32).1, toUint64 (parseInt sizeText 10 64).1,
        (a :: as).dropLast⟩, rfl, hmode, hsize, hmode2, hsize2⟩
    · subst hl
      exact ⟨⟨"dir", toUint32 (parseInt modeText 8 32).1, toUint64 (parseInt sizeText 10 64).1,
        (a :: as).dropLast⟩, rfl, hmode, hsize, hmode2, hsize2⟩

/-- A malformed mode or size field of a `C` or `D` line of three fields gives zero. -/
theorem parseControl_malformed (control : List Nat) (lead : Nat)
    (modeText sizeText p2 : List Nat)
    (hsplit : splitN 32 3 control = [lead :: modeText, sizeText, p2])
    (hlead : lead = 67 ∨ lead = 68) (hp2 : p2 ≠ []) :
    ∃ r, parseControl control = .ok r ∧
      (Malformed 8 (2 ^ 32 - 1) modeText → r.mode = 0) ∧
      (Malformed 10 (2 ^ 64 - 1) sizeText → r.size = 0) := by
  have hmode : Malformed 8 (2 ^ 32 - 1) modeText → toUint32 (parseInt modeText 8 32).1 = 0 := by
    intro h
    rw [parseInt_malformed 8 32 (by decide) (by decide) (by decide) modeText h]
    rfl
  have hsize : Malformed 10 (2 ^ 64 - 1) sizeText → toUint64 (parseInt sizeText 10 64).1 = 0 := by
    intro h
    rw [parseInt_malformed 10 64 (by decide) (by decide) (by decide) sizeText h]
    rfl
  unfold parseControl
  rw [hsplit]
  cases p2 with
  | nil => exact absurd rfl hp2
  | cons a as =>
    rcases hlead with hl | hl
    · subst hl
      exact ⟨⟨"file", toUint32 (parseInt modeText 8 32).1, toUint64 (parseInt sizeText 10 64).1,
        (a :: as).dropLast⟩, rfl, hmode, hsize⟩
    · subst hl
      exact ⟨⟨"dir", toUint32 (parseInt modeText 8 32).1, toUint64 (parseInt sizeText 10 64).1,
        (a :: as).dropLast⟩, rfl, hmode, hsize⟩

/-! ## Lemmas on paths -/

theorem splitAll_ne_nil (sep : Nat) (a : List Nat) : splitAll sep a ≠ [] := by
  cases a with
  | nil => simp [splitAll]
  | cons c cs =>
    unfold splitAll
    by_cases h : c = sep
    · simp [h]
    · simp only [h, if_false]
      cases splitAll sep cs <;> simp

theorem splitAll_no_sep (sep : Nat) (a : List Nat) (h : sep ∉ a) : splitAll sep a = [a] := by
  induction a with
  | nil => rfl
  | cons c cs ih =>
    have hc : c ≠ sep := fun e => h (by simp [e])
    have hcs : sep ∉ cs := fun e => h (by simp [e])
    simp [splitAll, hc, ih hcs]

theorem splitAll_append (sep : Nat) (a b : List Nat) :
    splitAll sep (a ++ sep :: b) = splitAll sep a ++ splitAll sep b := by
  induction a with
  | nil => simp [splitAll]
  | cons c cs ih =>
    by_cases hc : c = sep
    · simp [splitAll, hc, ih]
    · have hne := splitAll_ne_nil sep cs
      simp only [List.cons_append, splitAll, hc, if_false, List.append_eq]
      rw [ih]
      cases hs : splitAll sep cs with
      | nil => exact absurd hs hne
      | cons piece pieces => simp

theorem splitAll_pieces (sep : Nat) (a : List Nat) : ∀ e ∈ splitAll sep a, sep ∉ e := by
  induction a with
  | nil => intro e he; simp [splitAll] at he; simp [he]
  | cons c cs ih =>
    intro e he
    unfold splitAll at he
    by_cases hc : c = sep
    · simp only [hc, if_true, List.mem_cons] at he
      rcases he with he | he
      · simp [he]
      · exact ih e he
    · simp only [hc, if_false] at he
      cases hs : splitAll sep cs with
      | nil => rw [hs] at he; simp at he; simp [he, Ne.symm hc]
      | cons piece pieces =>
        rw [hs] at he ih
        simp only [List.mem_cons] at he
        rcases he with he | he
        · rw [he]
          intro hmem
          rcases List.mem_cons.mp hmem with h1 | h1
          · exact hc h1.symm
          · exact ih piece (by simp) h1
        · exact ih e (by simp [he])

theorem splitAll_joinSlash (l : List (List Nat)) (hne : l ≠ []) (h : ∀ e ∈ l, 47 ∉ e) :
    splitAll 47 (joinSlash l) = l := by
  induction l with
  | nil => exact absurd rfl hne
  | cons x rest ih =>
    cases rest with
    | nil => simpa [joinSlash] using splitAll_no_sep 47 x (h x (by simp))
    | cons y rest =>
      rw [joinSlash, splitAll_append, splitAll_no_sep 47 x (h x (by simp)),
        ih (by simp) (fun e he => h e (by simp [he]))]
      rfl

theorem joinSlash_concat (l : List (List Nat)) (n : List Nat) :
    joinSlash (l ++ [n]) = if l = [] then n else joinSlash l ++ 47 :: n := by
  induction l with
  | nil => simp [joinSlash]
  | cons x rest ih =>
    cases rest with
    | nil => simp [joinSlash]
    | cons y rest =>
      have h1 : (x :: y :: rest) ++ [n] = x :: y :: (rest ++ [n]) := rfl
      have h2 : (y :: rest) ++ [n] = y :: (rest ++ [n]) := rfl
      rw [h1, joinSlash, ← h2, ih]
      simp [joinSlash]

theorem joinSlash_head (c : Nat) (cs : List Nat) (rest : List (List Nat)) :
    ∃ t, joinSlash ((c :: cs) :: rest) = c :: t := by
  cases rest with
  | nil => exact ⟨cs, rfl⟩
  | cons y rest => exact ⟨cs ++ 47 :: joinSlash (y :: rest), rfl⟩

theorem throughLastSlash_no_slash (n : List Nat) (h : 47 ∉ n) : throughLastSlash n = [] := by
  induction n with
  | nil => rfl
  | cons c cs ih =>
    have hc : c ≠ 47 := fun e => h (by simp [e])
    have hcs : 47 ∉ cs := fun e => h (by simp [e])
    simp [throughLastSlash, ih hcs, hc]

theorem throughLastSlash_append (a n : List Nat) (h : 47 ∉ n) :
    throughLastSlash (a ++ 47 :: n) = a ++ [47] := by
  induction a with
  | nil => simp [throughLastSlash, throughLastSlash_no_slash n h]
  | cons c cs ih =>
    rw [List.cons_append, throughLastSlash, ih]
    obtain ⟨d, ds, hd⟩ : ∃ d ds, cs ++ [47] = d :: ds := by
      cases cs with
      | nil => exact ⟨47, [], rfl⟩
      | cons x xs => exact ⟨x, xs ++ [47], List.cons_append x xs [47]⟩
    rw [hd, List.cons_append, hd]

theorem cleanStep_plain (rooted : Bool) (kept : List (List Nat)) (e : List Nat)
    (h : PlainName e) : cleanStep rooted kept e = e :: kept := by
  obtain ⟨h1, h2, h3, _⟩ := h
  simp [cleanStep, h1, h2, h3]

theorem cleanStep_empty (rooted : Bool) (kept : List (List Nat)) :
    cleanStep rooted kept [] = kept := by
  simp [cleanStep]

theorem cleanStep_ok (rooted : Bool) (kept : List (List Nat)) (elem : List Nat)
    (hk : KeptOk rooted kept) (he : 47 ∉ elem) : KeptOk rooted (cleanStep rooted kept elem) := by
  obtain ⟨reals, dots, hkept, hreals, hdots, hroot⟩ := hk
  by_cases h1 : elem = [] ∨ elem = [46]
  · simp only [cleanStep, h1, if_true]
    exact ⟨reals, dots, hkept, hreals, hdots, hroot⟩
  · by_cases h2 : elem = [46, 46]
    · subst h2
      cases reals with
      | nil =>
        simp only [List.nil_append] at hkept
        rw [hkept]
        cases dots with
        | nil =>
          cases rooted with
          | true =>
            have e : cleanStep true [] [46, 46] = [] := by simp [cleanStep]
            rw [e]
            exact ⟨[], [], rfl, by simp, by simp, fun _ => rfl⟩
          | false =>
            have e : cleanStep false [] [46, 46] = [[46, 46]] := by simp [cleanStep]
            rw [e]
            exact ⟨[], [[46, 46]], rfl, by simp, by simp, by simp⟩
        | cons top below =>
          have htop : top = [46, 46] := hdots top (by simp)
          have hr : rooted ≠ true := fun e => by simpa using hroot e
          have e : cleanStep rooted (top :: below) [46, 46] = [46, 46] :: top :: below := by
            simp [cleanStep, htop]
          rw [e]
          refine ⟨[], [46, 46] :: top :: below, rfl, by simp, ?_, fun e => absurd e hr⟩
          intro x hx
          rcases List.mem_cons.mp hx with hx | hx
          · exact hx
          · exact hdots x hx
      | cons top below =>
        have htop : top ≠ [46, 46] := (hreals top (by simp)).2.2.1
        rw [hkept]
        have e : cleanStep rooted (top :: below ++ dots) [46, 46] = below ++ dots := by
          simp [cleanStep, htop]
        rw [e]
        exact ⟨below, dots, rfl, fun e he => hreals e (by simp [he]), hdots, hroot⟩
    · have hp : PlainName elem := by
        refine ⟨fun e => h1 (Or.inl e), fun e => h1 (Or.inr e), h2, he⟩
      rw [cleanStep_plain rooted kept elem hp]
      refine ⟨elem :: reals, dots, by simp [hkept], ?_, hdots, hroot⟩
      intro e he2
      rcases List.mem_cons.mp he2 with he2 | he2
      · rw [he2]; exact hp
      · exact hreals e he2

theorem foldl_cleanStep_ok (rooted : Bool) (pieces : List (List Nat))
    (hp : ∀ e ∈ pieces, 47 ∉ e) :
    ∀ kept, KeptOk rooted kept → KeptOk rooted (pieces.foldl (cleanStep rooted) kept) := by
  induction pieces with
  | nil => intro kept hk; exact hk
  | cons x rest ih =>
    intro kept hk
    exact ih (fun e he => hp e (by simp [he])) _ (cleanStep_ok rooted kept x hk (hp x (by simp)))

theorem cleanKept_ok (rooted : Bool) (path : Path) : KeptOk rooted (cleanKept rooted path) :=
  foldl_cleanStep_ok rooted _ (splitAll_pieces 47 path) []
    ⟨[], [], rfl, by simp, by simp, fun _ => rfl⟩

theorem foldl_cleanStep_plain (rooted : Bool) (rs : List (List Nat))
    (h : ∀ e ∈ rs, PlainName e) :
    ∀ acc, rs.foldl (cleanStep rooted) acc = rs.reverse ++ acc := by
  induction rs with
  | nil => intro acc; rfl
  | cons x rest ih =>
    intro acc
    rw [List.foldl_cons, cleanStep_plain rooted acc x (h x (by simp)),
      ih (fun e he => h e (by simp [he]))]
    simp

theorem foldl_cleanStep_dots (ds : List (List Nat)) (h : ∀ e ∈ ds, e = [46, 46]) :
    ∀ acc, (∀ e ∈ acc, e = [46, 46]) →
      ds.foldl (cleanStep false) acc = ds.reverse ++ acc := by
  induction ds with
  | nil => intro acc _; rfl
  | cons x rest ih =>
    intro acc hacc
    have hx : x = [46, 46] := h x (by simp)
    have hstep : cleanStep false acc x = x :: acc := by
      subst hx
      cases acc with
      | nil => simp [cleanStep]
      | cons top below =>
        have htop : top = [46, 46] := hacc top (by simp)
        simp [cleanStep, htop]
    rw [List.foldl_cons, hstep, ih (fun e he => h e (by simp [he]))]
    · simp
    · intro e he
      rcases List.mem_cons.mp he with he | he
      · rw [he]; exact hx
      · exact hacc e he

/-- Cleaning what has been kept keeps it: the elements, read outermost first,
give the same elements again. -/
theorem foldl_cleanStep_replay (rooted : Bool) (kept : List (List Nat))
    (hk : KeptOk rooted kept) : kept.reverse.foldl (cleanStep rooted) [] = kept := by
  obtain ⟨reals, dots, hkept, hreals, hdots, hroot⟩ := hk
  subst hkept
  rw [List.reverse_append, List.foldl_append]
  have hr : ∀ e ∈ reals.reverse, PlainName e := fun e he => hreals e (List.mem_reverse.mp he)
  rw [foldl_cleanStep_plain rooted reals.reverse hr]
  cases rooted with
  | true =>
    rw [hroot rfl]
    simp
  | false =>
    have hd : ∀ e ∈ dots.reverse, e = [46, 46] := fun e he => hdots e (List.mem_reverse.mp he)
    rw [foldl_cleanStep_dots dots.reverse hd [] (by simp)]
    simp

theorem KeptOk.elems {rooted : Bool} {kept : List (List Nat)} (hk : KeptOk rooted kept) :
    ∀ e ∈ kept, e ≠ [] ∧ 47 ∉ e := by
  obtain ⟨reals, dots, hkept, hreals, hdots, _⟩ := hk
  intro e he
  rw [hkept] at he
  rcases List.mem_append.mp he with he | he
  · exact ⟨(hreals e he).1, (hreals e he).2.2.2⟩
  · rw [hdots e he]; exact ⟨by simp, by decide⟩

theorem cleanKept_join (rooted : Bool) (dir n : List Nat) (hn : PlainName n) :
    cleanKept rooted (dir ++ 47 :: n) = n :: cleanKept rooted dir := by
  unfold cleanKept
  rw [splitAll_append, splitAll_no_sep 47 n hn.2.2.2, List.foldl_append]
  simp only [List.foldl_cons, List.foldl_nil]
  exact cleanStep_plain _ _ _ hn

theorem cleanKept_slash (rooted : Bool) (path : List Nat) :
    cleanKept rooted (47 :: path) = cleanKept rooted path := by
  unfold cleanKept
  simp [splitAll, cleanStep_empty]

theorem cleanKept_rendered (rooted : Bool) (kept : List (List Nat)) (hk : KeptOk rooted kept)
    (hne : kept ≠ []) : cleanKept rooted (joinSlash kept.reverse ++ [47]) = kept := by
  unfold cleanKept
  have hrev : kept.reverse ≠ [] := by simpa using hne
  have hp : ∀ e ∈ kept.reverse, 47 ∉ e := fun e he => (hk.elems e (List.mem_reverse.mp he)).2
  rw [show joinSlash kept.reverse ++ [47] = joinSlash kept.reverse ++ 47 :: [] from rfl,
    splitAll_append, splitAll_joinSlash kept.reverse hrev hp, List.foldl_append,
    foldl_cleanStep_replay rooted kept hk]
  simp [splitAll, cleanStep_empty]

theorem filepathClean_plain (n : List Nat) (hn : PlainName n) : filepathClean n = n := by
  obtain ⟨h1, h2, h3, h4⟩ := hn
  cases n with
  | nil => exact absurd rfl h1
  | cons c cs =>
    have hc : c ≠ 47 := fun e => h4 (by simp [e])
    have hk : cleanKept false (c :: cs) = [c :: cs] := by
      unfold cleanKept
      rw [splitAll_no_sep 47 (c :: cs) h4]
      simp only [List.foldl_cons, List.foldl_nil]
      exact cleanStep_plain _ _ _ ⟨h1, h2, h3, h4⟩
    simp [filepathClean, hc, hk, renderPath, joinSlash]

/-- Joining a directory with a plain name gives a path that lies directly in
that directory: its `filepath.Dir` is the cleaned directory. -/
theorem filepathDir_join (dir n : Path) (hn : PlainName n) :
    filepathDir (filepathJoin dir n) = filepathClean dir := by
  have h47 : 47 ∉ n := hn.2.2.2
  have hne : n ≠ [] := hn.1
  cases dir with
  | nil =>
    have hj : filepathJoin [] n = n := by
      simp [filepathJoin, hne, filepathClean_plain n hn]
    rw [hj, filepathDir, throughLastSlash_no_slash n h47]
  | cons first dtail =>
    have hj : filepathJoin (first :: dtail) n
        = renderPath (decide (first = 47))
            (n :: cleanKept (decide (first = 47)) (first :: dtail)) := by
      have e1 : (first :: dtail) ++ 47 :: n = first :: (dtail ++ 47 :: n) := rfl
      rw [← cleanKept_join _ (first :: dtail) n hn]
      simp [filepathJoin, filepathClean]
    have hK := cleanKept_ok (decide (first = 47)) (first :: dtail)
    have hc : filepathClean (first :: dtail)
        = renderPath (decide (first = 47)) (cleanKept (decide (first = 47)) (first :: dtail)) := rfl
    rw [hj, hc]
    generalize cleanKept (decide (first = 47)) (first :: dtail) = K at hK
    generalize decide (first = 47) = r at hK
    have hjoin : joinSlash (K.reverse ++ [n])
        = if K.reverse = [] then n else joinSlash K.reverse ++ 47 :: n :=
      joinSlash_concat K.reverse n
    by_cases hKe : K = []
    · subst hKe
      cases r with
      | true =>
        have : renderPath true [n] = [] ++ 47 :: n := by simp [renderPath, joinSlash]
        rw [this, filepathDir, throughLastSlash_append [] n h47]
        decide
      | false =>
        have : renderPath false [n] = n := by simp [renderPath, joinSlash, hne]
        rw [this, filepathDir, throughLastSlash_no_slash n h47]
        decide
    · have hrev : K.reverse ≠ [] := by simpa using hKe
      rw [if_neg hrev] at hjoin
      cases r with
      | true =>
        have hP : renderPath true (n :: K) = (47 :: joinSlash K.reverse) ++ 47 :: n := by
          simp [renderPath, hjoin]
        rw [hP, filepathDir, throughLastSlash_append _ n h47]
        have hcl : filepathClean ((47 :: joinSlash K.reverse) ++ [47])
            = renderPath true (cleanKept true (47 :: (joinSlash K.reverse ++ [47]))) := rfl
        rw [hcl, cleanKept_slash, cleanKept_rendered true K hK hKe]
      | false =>
        have hP : renderPath false (n :: K) = joinSlash K.reverse ++ 47 :: n := by
          simp [renderPath, hjoin]
        rw [hP, filepathDir, throughLastSlash_append _ n h47]
        obtain ⟨e0, rest, hr⟩ : ∃ e0 rest, K.reverse = e0 :: rest := by
          cases hh : K.reverse with
          | nil => exact absurd hh hrev
          | cons a b => exact ⟨a, b, rfl⟩
        have he0 := hK.elems e0 (List.mem_reverse.mp (by rw [hr]; simp))
        obtain ⟨c, cs, hcs⟩ : ∃ c cs, e0 = c :: cs := by
          cases hh : e0 with
          | nil => exact absurd hh he0.1
          | cons a b => exact ⟨a, b, rfl⟩
        have hc47 : c ≠ 47 := fun e => he0.2 (by simp [hcs, e])
        obtain ⟨t, ht⟩ := joinSlash_head c cs rest
        have hB : joinSlash K.reverse = c :: t := by rw [hr, hcs, ht]
        have hcl : filepathClean (joinSlash K.reverse ++ [47])
            = renderPath false (cleanKept false (joinSlash K.reverse ++ [47])) := by
          rw [hB]
          simp [filepathClean, hc47]
        rw [hcl, cleanKept_rendered false K hK hKe]

/-- The name of a `C` or `D` header is the third field without its last byte. -/
theorem parseControl_name (X : Nat) (m s n : List Nat) (hX : X = 67 ∨ X = 68)
    (h0 : 32 ∉ m) (h1 : 32 ∉ s) :
    ∃ r, parseControl ((X :: m) ++ 32 :: (s ++ 32 :: (n ++ [10]))) = .ok r ∧ r.name = n := by
  have hXm : 32 ∉ X :: m := by
    intro h
    rcases List.mem_cons.mp h with e | e
    · rcases hX with hX | hX <;> omega
    · exact h0 e
  unfold parseControl
  rw [splitN_three (X :: m) s (n ++ [10]) hXm h1]
  cases hp : n ++ [10] with
  | nil => simp at hp
  | cons a as =>
    have hd : (a :: as).dropLast = n := by rw [← hp]; exact List.dropLast_concat
    rcases hX with hX | hX
    · subst hX
      exact ⟨⟨"file", toUint32 (parseInt m 8 32).1, toUint64 (parseInt s 10 64).1,
        (a :: as).dropLast⟩, rfl, hd⟩
    · subst hX
      exact ⟨⟨"dir", toUint32 (parseInt m 8 32).1, toUint64 (parseInt s 10 64).1,
        (a :: as).dropLast⟩, rfl, hd⟩

/-! ## Lemmas on `readDirectory` and on what `readFile` leaves alone -/

/-- With a record of kind "file" the loop of `readDirectory` calls `readFile`
again and again and never returns. -/
theorem readDirectoryLoop_file_never_returns (r : Control) (newPath : Path)
    (hk : r.kind = "file") :
    ∀ (fuel : Nat) (conn : Channel) (fs : FS), readDirectoryLoop fuel conn fs r newPath = none := by
  intro fuel
  induction fuel with
  | zero => intro conn fs; rw [readDirectoryLoop]
  | succ fuel ih =>
    intro conn fs
    rw [readDirectoryLoop]
    have h1 : ¬ (r.kind = "dir") := by rw [hk]; decide
    simp only [h1, hk, if_false, if_true]
    cases readFile fuel conn fs newPath r.mode r.size with
    | none => rfl
    | some x => exact ih _ _

theorem FS.get_filter_other (fs : FS) (p q : Path) (h : q ≠ p) :
    FS.get (fs.filter (fun e => e.1 ≠ p)) q = FS.get fs q := by
  induction fs with
  | nil => rfl
  | cons e rest ih =>
    obtain ⟨k, n⟩ := e
    rw [List.filter_cons]
    by_cases hk : k = p
    · have hkq : ¬ (k = q) := fun e => h (e.symm.trans hk)
      have hd : decide ((k, n).1 ≠ p) = false := by simp [hk]
      rw [hd, if_neg (by simp), ih, FS.get, if_neg hkq]
    · have hd : decide ((k, n).1 ≠ p) = true := by simp [hk]
      rw [hd, if_pos rfl, FS.get, FS.get, ih]

theorem FS.get_put_other (fs : FS) (p q : Path) (n : Node) (h : q ≠ p) :
    (fs.put p n).get q = fs.get q := by
  have hpq : ¬ (p = q) := fun e => h e.symm
  simp only [FS.put, FS.get, hpq, if_false]
  exact FS.get_filter_other fs p q h

theorem fileWrite_other (fs : FS) (p q : Path) (off : Nat) (data : List Nat) (h : q ≠ p) :
    (fileWrite fs p off data).get q = fs.get q := by
  unfold fileWrite
  cases hg : fs.get p with
  | none => rfl
  | some n =>
    cases n with
    | file m old => exact FS.get_put_other fs p q _ h
    | dir m => rfl
    | denied => rfl

theorem osOpenFile_other (fs fs0 : FS) (p q : Path) (mode : Nat) (h : q ≠ p)
    (hopen : osOpenFile fs p mode = .ok fs0) : fs0.get q = fs.get q := by
  unfold osOpenFile at hopen
  cases hg : fs.get p with
  | none =>
    rw [hg] at hopen
    simp only at hopen
    cases hd : fs.get (filepathDir p) with
    | none => rw [hd] at hopen; simp at hopen
    | some n =>
      rw [hd] at hopen
      cases n with
      | file m old => simp at hopen
      | dir m =>
        simp only [Except.ok.injEq] at hopen
        rw [← hopen]
        exact FS.get_put_other fs p q _ h
      | denied => simp at hopen
  | some n =>
    rw [hg] at hopen
    cases n with
    | file m old =>
      simp only [Except.ok.injEq] at hopen
      rw [← hopen]
    | dir m => simp at hopen
    | denied => simp at hopen

theorem readFileLoop_other (path q : Path) (size : Nat) (h : q ≠ path) :
    ∀ (fuel : Nat) (conn : Channel) (fs : FS) (off nn : Nat) (e : Option GoError)
      (c1 : Channel) (fs1 : FS),
      readFileLoop path size fuel conn fs off nn = some (e, c1, fs1) → fs1.get q = fs.get q := by
  intro fuel
  induction fuel with
  | zero => intro conn fs off nn e c1 fs1 hr; simp [readFileLoop] at hr
  | succ fuel ih =>
    intro conn fs off nn e c1 fs1 hr
    rw [readFileLoop] at hr
    rcases hread : conn.read (size % 1024) with ⟨data, c⟩
    rw [hread] at hr
    cases data with
    | none =>
      simp only [Option.some.injEq, Prod.mk.injEq] at hr
      rw [← hr.2.2]
    | some data =>
      simp only at hr
      split at hr
      · simp only [Option.some.injEq, Prod.mk.injEq] at hr
        rw [← hr.2.2]
        exact fileWrite_other fs path q off data h
      · rw [ih _ _ _ _ _ _ _ hr]
        exact fileWrite_other fs path q off data h

/-- A call of `readFile` changes nothing but the node at its path. -/
theorem readFile_other (fuel : Nat) (conn c1 : Channel) (fs fs1 : FS) (path q : Path)
    (mode size : Nat) (e : Option GoError) (h : q ≠ path)
    (hr : readFile fuel conn fs path mode size = some (e, c1, fs1)) : fs1.get q = fs.get q := by
  unfold readFile at hr
  cases hopen : osOpenFile fs path mode with
  | error err =>
    rw [hopen] at hr
    simp only [Option.some.injEq, Prod.mk.injEq] at hr
    rw [← hr.2.2]
  | ok fs0 =>
    rw [hopen] at hr
    simp only at hr
    have h0 := osOpenFile_other fs fs0 path q mode h hopen
    cases hloop : readFileLoop path size fuel conn fs0 0 0 with
    | none => rw [hloop] at hr; simp at hr
    | some x =>
      obtain ⟨e1, c, fs2⟩ := x
      have h2 := readFileLoop_other path q size h fuel conn fs0 0 0 e1 c fs2 hloop
      rw [hloop] at hr
      cases e1 with
      | some err =>
        simp only [Option.some.injEq, Prod.mk.injEq] at hr
        rw [← hr.2.2, h2, h0]
      | none =>
        simp only at hr
        split at hr
        · simp only [Option.some.injEq, Prod.mk.injEq] at hr
          rw [← hr.2.2, h2, h0]
        · simp only [Option.some.injEq, Prod.mk.injEq] at hr
          rw [← hr.2.2, h2, h0]

/-! ## Lemmas on formatting and on the sending loop -/

theorem digitsRev_spec (base : Nat) (hb2 : 2 ≤ base) :
    ∀ (fuel n : Nat), n < fuel →
      (digitsRev base fuel n).foldr (fun c acc => acc * base + (c - 48)) 0 = n ∧
      (∀ c ∈ digitsRev base fuel n, digitBelow base c) ∧
      (0 < n → ∃ init d, digitsRev base fuel n = init ++ [d] ∧ d ≠ 48) ∧
      digitsRev base fuel n ≠ [] := by
  intro fuel
  induction fuel with
  | zero => intro n h; exact absurd h (Nat.not_lt_zero _)
  | succ fuel ih =>
    intro n hn
    rw [digitsRev]
    by_cases hlt : n < base
    · simp only [hlt, if_true]
      refine ⟨by simp, ?_, ?_, by simp⟩
      · intro c hc
        simp only [List.mem_singleton] at hc
        rw [hc]
        exact ⟨by omega, by omega⟩
      · intro hpos
        exact ⟨[], 48 + n, rfl, by omega⟩
    · simp only [hlt, if_false]
      have hdiv : n / base < n := Nat.div_lt_self (by omega) (by omega)
      have hdpos : 0 < n / base := Nat.div_pos (by omega) (by omega)
      obtain ⟨h1, h2, h3, _⟩ := ih (n / base) (by omega)
      have hmod : n % base < base := Nat.mod_lt _ (by omega)
      refine ⟨?_, ?_, ?_, by simp⟩
      · simp only [List.foldr_cons, h1]
        have := Nat.div_add_mod' n base
        omega
      · intro c hc
        rcases List.mem_cons.mp hc with hc | hc
        · rw [hc]; exact ⟨by omega, by omega⟩
        · exact h2 c hc
      · intro _
        obtain ⟨init, d, hd, hne⟩ := h3 hdpos
        exact ⟨(48 + n % base) :: init, d, by rw [hd]; rfl, hne⟩

/-- The digits `formatNat` writes denote the number, are digits of the base,
and do not start with `0` unless the number is zero. -/
theorem formatNat_spec (base n : Nat) (hb2 : 2 ≤ base) :
    digitsValue base (formatNat base n) = n ∧
    (∀ c ∈ formatNat base n, digitBelow base c) ∧
    (0 < n → ∃ d ds, formatNat base n = d :: ds ∧ d ≠ 48) ∧
    formatNat base n ≠ [] := by
  obtain ⟨h1, h2, h3, h4⟩ := digitsRev_spec base hb2 (n + 1) n (by omega)
  refine ⟨?_, ?_, ?_, ?_⟩
  · unfold digitsValue formatNat
    rw [List.foldl_reverse]
    exact h1
  · intro c hc
    exact h2 c (List.mem_reverse.mp hc)
  · intro hpos
    obtain ⟨init, d, hd, hne⟩ := h3 hpos
    exact ⟨d, init.reverse, by unfold formatNat; rw [hd]; simp, hne⟩
  · unfold formatNat
    simpa using h4

theorem fmtSharpOctal_eq (n : Nat) :
    fmtSharpOctal n = if n = 0 then [48] else 48 :: formatNat 8 n := by
  by_cases h0 : n = 0
  · subst h0
    decide
  · obtain ⟨d, ds, hd, hne⟩ := (formatNat_spec 8 n (by decide)).2.2.1 (by omega)
    simp [fmtSharpOctal, hd, hne, h0]

theorem Session.readAck_written (s : Session) :
    (s.readAck).2.conn.written = s.conn.written := by
  unfold Session.readAck ScpHandler.readAck
  have hw := Channel.read_written s.conn 1
  rcases hr : s.conn.read 1 with ⟨data, c1⟩
  rw [hr] at hw
  cases data with
  | none => exact hw
  | some d =>
    cases d with
    | nil => exact hw
    | cons b bs => exact hw

/-- The loop of `scpTransferFile` ends, reads nothing from the channel and
writes what is left of the file, in order. -/
theorem sendLoop_sends (path : Path) :
    ∀ (fuel : Nat) (left : List Nat) (s : Session), left.length / 1024 + 1 ≤ fuel →
      ∃ s1, sendLoop path fuel left s = some (none, s1) ∧
        s1.conn.incoming = s.conn.incoming ∧ s1.conn.written = s.conn.written ++ left := by
  intro fuel
  induction fuel with
  | zero => intro left s h; omega
  | succ fuel ih =>
    intro left s h
    cases left with
    | nil => exact ⟨_, rfl, rfl, by simp [Session.note]⟩
    | cons a l =>
      simp only [sendLoop]
      by_cases hshort : ((a :: l).take 1024).length < 1024
      · rw [if_pos hshort]
        have hall : (a :: l).take 1024 = a :: l := by
          apply List.take_of_length_le
          rw [List.length_take] at hshort
          omega
        exact ⟨_, rfl, rfl, by simp [Session.write, Session.note, Channel.write, hall]⟩
      · rw [if_neg hshort]
        have hlen : 1024 ≤ (a :: l).length := by
          rw [List.length_take] at hshort
          omega
        have hfuel : ((a :: l).drop 1024).length / 1024 + 1 ≤ fuel := by
          rw [List.length_drop]
          have : (a :: l).length / 1024 = ((a :: l).length - 1024) / 1024 + 1 := by
            omega
          omega
        obtain ⟨s1, h1, h2, h3⟩ := ih ((a :: l).drop 1024)
          ((s.note (.fileRead path ((a :: l).take 1024).length)).write ((a :: l).take 1024)) hfuel
        refine ⟨s1, h1, ?_, ?_⟩
        · rw [h2]; rfl
        · rw [h3]
          simp only [Session.write, Session.note, Channel.write, List.append_assoc,
            List.take_append_drop]

/-! ## The claims -/

/-- C1, at the size 1027: `readFile` asks for `1027 % 1024 = 3` bytes in every
round, so after 342 rounds one content byte is left and the next read takes it
together with the terminal ACK byte of the peer; both are written to the file,
the count passes 1027 without being equal to it, and the loop goes on until the
channel fails.  The ACK byte ends up in the file as data. -/
theorem readFile_size_1027_takes_ack_as_data (content : List Nat) (ack fuel : Nat)
    (hlen : content.length = 1027) :
    readFile (fuel + 344) ⟨[content ++ [ack]], []⟩ [(ascii "/tmp", .dir 493)]
        (ascii "/tmp/x") 420 1027 =
      some (some .eof, ⟨[], []⟩,
        [(ascii "/tmp/x", .file 420 (content ++ [ack])), (ascii "/tmp", .dir 493)]) := by
  have hopen : osOpenFile [(ascii "/tmp", .dir 493)] (ascii "/tmp/x") 420
      = .ok [(ascii "/tmp/x", .file 420 []), (ascii "/tmp", .dir 493)] := by decide
  have hsplit : content = content.take 1026 ++ content.drop 1026 :=
    (List.take_append_drop _ _).symm
  have hl1 : (content.take 1026).length = 1026 := by rw [List.length_take]; omega
  have hl2 : (content.drop 1026).length = 1 := by rw [List.length_drop]; omega
  obtain ⟨c, hc⟩ : ∃ c, content.drop 1026 = [c] := by
    cases hd : content.drop 1026 with
    | nil => rw [hd] at hl2; simp at hl2
    | cons c cs =>
      rw [hd] at hl2
      cases cs with
      | nil => exact ⟨c, rfl⟩
      | cons d ds => simp at hl2
  have hrounds := readFileLoop_rounds (ascii "/tmp/x") 1027 (by decide) (by decide)
    [c, ack] [] [] 341 (content.take 1026)
    [(ascii "/tmp/x", .file 420 []), (ascii "/tmp", .dir 493)] 0 0 (fuel + 2)
    (by rw [hl1]) (by rw [hl1]; decide)
  have hin : content ++ [ack] = content.take 1026 ++ [c, ack] := by
    conv_lhs => rw [hsplit, hc]
    simp
  have hfs : fileWrite [(ascii "/tmp/x", .file 420 []), (ascii "/tmp", .dir 493)]
      (ascii "/tmp/x") 0 (content ++ [ack]) =
      [(ascii "/tmp/x", .file 420 (content ++ [ack])), (ascii "/tmp", .dir 493)] := by
    have hg : FS.get [(ascii "/tmp/x", Node.file 420 []), (ascii "/tmp", Node.dir 493)]
        (ascii "/tmp/x") = some (.file 420 []) := by decide
    have hf : List.filter (fun e : Path × Node => decide (e.1 ≠ ascii "/tmp/x"))
        [(ascii "/tmp/x", Node.file 420 []), (ascii "/tmp", Node.dir 493)]
        = [(ascii "/tmp", Node.dir 493)] := by decide
    simp only [fileWrite, hg, FS.put, hf]
    simp [overwriteAt]
  have htail : readFileLoop (ascii "/tmp/x") 1027 (fuel + 2) ⟨[[c, ack]], []⟩
      (fileWrite [(ascii "/tmp/x", .file 420 []), (ascii "/tmp", .dir 493)]
        (ascii "/tmp/x") 0 (content.take 1026))
      (0 + (content.take 1026).length) (0 + (content.take 1026).length)
      = some (some .eof, ⟨[], []⟩,
        fileWrite [(ascii "/tmp/x", .file 420 []), (ascii "/tmp", .dir 493)]
          (ascii "/tmp/x") 0 (content.take 1026 ++ [c, ack])) := by
    rw [← fileWrite_append]
    rw [hl1]
    simp [readFileLoop, Channel.read, recv]
  unfold readFile
  rw [hopen]
  simp only
  rw [show fuel + 344 = fuel + 2 + (341 + 1) from rfl, hin, hrounds, htail, ← hin, hfs]

/-- The run of `readFile` on 1027 bytes of content and a zero ACK byte. -/
theorem readFile_size_1027_witness :
    (List.replicate 1027 7).length = 1027 ∧
    readFile (0 + 344) ⟨[List.replicate 1027 7 ++ [0]], []⟩ [(ascii "/tmp", .dir 493)]
        (ascii "/tmp/x") 420 1027 =
      some (some .eof, ⟨[], []⟩,
        [(ascii "/tmp/x", .file 420 (List.replicate 1027 7 ++ [0])), (ascii "/tmp", .dir 493)]) :=
  ⟨List.length_replicate 1027 7,
    readFile_size_1027_takes_ack_as_data (List.replicate 1027 7) 0 0 (List.length_replicate 1027 7)⟩

/-- C2, as the code behaves: for a size that is a positive multiple of 1024
every read of `readFile` asks for zero bytes, the count never leaves zero, and
the call does not return, whatever the fuel: nothing is received. -/
theorem readFile_multiple_of_1024_never_returns (fuel : Nat) (conn : Channel) (fs fs0 : FS)
    (path : Path) (mode size : Nat) (hk : size % 1024 = 0) (hsize : size ≠ 0)
    (hopen : osOpenFile fs path mode = .ok fs0) :
    readFile fuel conn fs path mode size = none := by
  unfold readFile
  rw [hopen]
  simp only
  rw [readFileLoop_zero_request path size hk hsize fuel conn fs0 0]

/-- The run of `readFile` on 2048 bytes of content: no return within a million rounds. -/
theorem readFile_2048_witness :
    2048 % 1024 = 0 ∧ 2048 ≠ 0 ∧
    osOpenFile [(ascii "/tmp", .dir 493)] (ascii "/tmp/x") 420
      = .ok [(ascii "/tmp/x", .file 420 []), (ascii "/tmp", .dir 493)] ∧
    readFile 1000000 ⟨[List.replicate 2048 7 ++ [0]], []⟩ [(ascii "/tmp", .dir 493)]
      (ascii "/tmp/x") 420 2048 = none :=
  ⟨by decide, by decide, by decide,
    readFile_multiple_of_1024_never_returns 1000000 ⟨[List.replicate 2048 7 ++ [0]], []⟩
      [(ascii "/tmp", .dir 493)] [(ascii "/tmp/x", .file 420 []), (ascii "/tmp", .dir 493)]
      (ascii "/tmp/x") 420 2048 (by decide) (by decide) (by decide)⟩

/-- C3, refuted: with the four content bytes written and a terminal ACK byte
of 1 from the peer, `readFile` returns the error "ACK bad" and has written no
byte to the channel. -/
theorem readFile_nonzero_ack_writes_nothing :
    readFile 10 ⟨[ascii "abcd" ++ [1]], []⟩ [(ascii "/tmp", .dir 493)] (ascii "/tmp/x") 420 4 =
      some (some .ackBad, ⟨[[]], []⟩,
        [(ascii "/tmp/x", .file 420 (ascii "abcd")), (ascii "/tmp", .dir 493)]) := by
  decide

/-- C3, amended: once the loop of `readFile` has written the content, the
terminal ACK byte of the peer decides.  If it is zero, `readFile` returns `nil`
and has written exactly one zero byte to the channel; if it is not zero,
`readFile` returns the error "ACK bad" and has written nothing. -/
theorem readFile_ack_after_content (fuel : Nat) (conn c1 c2 : Channel) (fs fs0 fs1 : FS)
    (path : Path) (mode size ack : Nat)
    (hopen : osOpenFile fs path mode = .ok fs0)
    (hloop : readFileLoop path size fuel conn fs0 0 0 = some (none, c1, fs1))
    (hack : c1.read 1 = (some [ack], c2)) :
    ∃ c3, readFile fuel conn fs path mode size
        = some (if ack = 0 then none else some .ackBad, c3, fs1) ∧
      c3.incoming = c2.incoming ∧
      c3.written = conn.written ++ (if ack = 0 then [0] else []) := by
  have hw1 : c1.written = conn.written := readFileLoop_written path size fuel conn fs0 0 0 _ _ _ hloop
  have hw2 : c2.written = c1.written := by
    have := Channel.read_written c1 1
    rw [hack] at this
    exact this
  unfold readFile
  rw [hopen]
  simp only
  rw [hloop]
  simp only [readAck, hack]
  by_cases h0 : ack = 0
  · refine ⟨c2.write [0], ?_, rfl, ?_⟩
    · simp [h0]
    · simp [h0, Channel.write, hw2, hw1]
  · refine ⟨c2, ?_, rfl, ?_⟩
    · have : ¬ ((ack : Int) = 0) := by exact_mod_cast h0
      simp [h0, this]
    · simp [h0, hw2, hw1]

/-- Two runs of `readFile` on four content bytes: a zero ACK byte is answered
by one zero byte, an ACK byte of 1 by none. -/
theorem readFile_ack_after_content_witness :
    (osOpenFile [(ascii "/tmp", .dir 493)] (ascii "/tmp/x") 420
      = .ok [(ascii "/tmp/x", .file 420 []), (ascii "/tmp", .dir 493)] ∧
    readFileLoop (ascii "/tmp/x") 4 10 ⟨[ascii "abcd" ++ [0, 9]], [5]⟩
        [(ascii "/tmp/x", .file 420 []), (ascii "/tmp", .dir 493)] 0 0
      = some (none, ⟨[[0, 9]], [5]⟩,
          [(ascii "/tmp/x", .file 420 (ascii "abcd")), (ascii "/tmp", .dir 493)]) ∧
    Channel.read ⟨[[0, 9]], [5]⟩ 1 = (some [0], ⟨[[9]], [5]⟩)) ∧
    ∃ c3, readFile 10 ⟨[ascii "abcd" ++ [0, 9]], [5]⟩ [(ascii "/tmp", .dir 493)]
          (ascii "/tmp/x") 420 4
        = some (if 0 = 0 then none else some .ackBad, c3,
            [(ascii "/tmp/x", .file 420 (ascii "abcd")), (ascii "/tmp", .dir 493)]) ∧
      c3.incoming = [[9]] ∧
      c3.written = [5] ++ (if 0 = 0 then [0] else []) :=
  ⟨⟨by decide, by decide, by decide⟩,
    readFile_ack_after_content 10 ⟨[ascii "abcd" ++ [0, 9]], [5]⟩ ⟨[[0, 9]], [5]⟩ ⟨[[9]], [5]⟩
      [(ascii "/tmp", .dir 493)] [(ascii "/tmp/x", .file 420 []), (ascii "/tmp", .dir 493)]
      [(ascii "/tmp/x", .file 420 (ascii "abcd")), (ascii "/tmp", .dir 493)]
      (ascii "/tmp/x") 420 4 0 (by decide) (by decide) (by decide)⟩

/-- C4, as the code behaves: the end-of-directory line `E` followed by a
newline has a single field, so `readProtocolControl` returns the Unknown record
for it (empty kind), not the record of kind "exit"; the branch for `E` is
reached only by a line of three fields. -/
theorem readProtocolControl_end_line_is_unknown :
    parseControl (ascii "E\n") = .ok Control.unknown ∧
    (readProtocolControl ⟨[ascii "E\n"], []⟩).2 = .ok ⟨"", 0, 0, []⟩ ∧
    parseControl (ascii "E 0 x\n") = .ok Control.exit := by
  decide

/-- C5: for a line `X<m> <s> <n>` closed by a newline, with `X` one of `C`
and `D`, `m` a non-empty string of octal digits of value below `2^31`, `s` a
non-empty string of decimal digits of value below `2^63` and `n` a name without
a newline (spaces allowed), `readProtocolControl` returns kind "file" for `C`
and "dir" for `D`, the value of `m` in base 8 as mode, the value of `s` in base
10 as size, and `n` as name; this holds for the text itself and for a channel
whose head burst starts with the line. -/
theorem readProtocolControl_header (X : Nat) (m s n extra : List Nat)
    (more : List (List Nat)) (w : List Nat) (hX : X = 67 ∨ X = 68)
    (hm : m ≠ []) (hmd : ∀ c ∈ m, digitBelow 8 c) (hmv : digitsValue 8 m < 2 ^ 31)
    (hs : s ≠ []) (hsd : ∀ c ∈ s, digitBelow 10 c) (hsv : digitsValue 10 s < 2 ^ 63)
    (hn : 10 ∉ n) :
    parseControl ((X :: m) ++ 32 :: (s ++ 32 :: (n ++ [10]))) =
      .ok ⟨if X = 67 then "file" else "dir", digitsValue 8 m, digitsValue 10 s, n⟩ ∧
    (readProtocolControl ⟨((X :: m) ++ 32 :: (s ++ 32 :: (n ++ 10 :: extra))) :: more, w⟩).2 =
      .ok ⟨if X = 67 then "file" else "dir", digitsValue 8 m, digitsValue 10 s, n⟩ :=
  ⟨parseControl_header X m s n hX hm hmd hmv hs hsd hsv,
    controlOfHeaderLine X m s n extra more w hX hm hmd hmv hs hsd hsv hn⟩

/-- The header `C0644 4 my file` is read as a file of mode 0644, size 4, name `my file`. -/
theorem readProtocolControl_header_witness :
    ((67 = 67 ∨ 67 = 68) ∧ ascii "0644" ≠ [] ∧ (∀ c ∈ ascii "0644", digitBelow 8 c) ∧
      digitsValue 8 (ascii "0644") < 2 ^ 31 ∧ ascii "4" ≠ [] ∧
      (∀ c ∈ ascii "4", digitBelow 10 c) ∧ digitsValue 10 (ascii "4") < 2 ^ 63 ∧
      10 ∉ ascii "my file") ∧
    parseControl ((67 :: ascii "0644") ++ 32 :: (ascii "4" ++ 32 :: (ascii "my file" ++ [10]))) =
      .ok ⟨if 67 = 67 then "file" else "dir", digitsValue 8 (ascii "0644"),
        digitsValue 10 (ascii "4"), ascii "my file"⟩ ∧
    (readProtocolControl
        ⟨((67 :: ascii "0644") ++ 32 :: (ascii "4" ++ 32 :: (ascii "my file" ++ 10 :: ascii "abcd")))
          :: [[0]], []⟩).2 =
      .ok ⟨if 67 = 67 then "file" else "dir", digitsValue 8 (ascii "0644"),
        digitsValue 10 (ascii "4"), ascii "my file"⟩ :=
  ⟨⟨by decide, by decide, by decide, by decide, by decide, by decide, by decide, by decide⟩,
    readProtocolControl_header 67 (ascii "0644") (ascii "4") (ascii "my file") (ascii "abcd")
      [[0]] [] (by decide) (by decide) (by decide) (by decide) (by decide) (by decide)
      (by decide) (by decide)⟩

/-- C6, as the code behaves: `readProtocolControl` is not total.  A line of
three fields whose first field is empty makes `parts[0][1:]` panic, and a line of
three fields whose third field is empty makes `filename[:len(filename)-1]`
panic; the empty line is answered by the Unknown record. -/
theorem readProtocolControl_panics :
    parseControl (ascii " 1 x\n") = .error "slice bounds out of range [1:0]" ∧
    parseControl (ascii "C1 2 ") = .error "slice bounds out of range [:-1]" ∧
    (readProtocolControl ⟨[ascii " 1 x\n"], []⟩).2 = .error "slice bounds out of range [1:0]" ∧
    (readProtocolControl ⟨[ascii "C1 2 "], []⟩).2 = .error "slice bounds out of range [:-1]" ∧
    parseControl [] = .ok Control.unknown := by
  decide

/-- C7, refuted: the mode field `-1` is not a string of octal digits and is
read as mode `2^32 - 1`; the size field `+7` is not a string of decimal digits
and is read as size 7; the mode field `777777777778`, which has the byte `8` in
it, is read as `2^31 - 1`, the digits before the `8` being out of range. -/
theorem readProtocolControl_signed_fields :
    ¬ (∀ c ∈ ascii "-1", digitBelow 8 c) ∧ ¬ (∀ c ∈ ascii "+7", digitBelow 10 c) ∧
    parseControl (ascii "C-1 +7 x\n") = .ok ⟨"file", 4294967295, 7, ascii "x"⟩ ∧
    parseControl (ascii "D-1 -1 x\n") = .ok ⟨"dir", 4294967295, 18446744073709551615, ascii "x"⟩ ∧
    ¬ (∀ c ∈ ascii "777777777778", digitBelow 8 c) ∧
    parseControl (ascii "C777777777778 1 x\n") = .ok ⟨"file", 2147483647, 1, ascii "x"⟩ := by
  decide

/-- C7, amended: for a `C` or `D` line of three fields with a non-empty third
field, `readProtocolControl` returns a record, and each numeric field (the mode
field after the leading letter in base 8 with 32 bits, the size field in base
10 with 64 bits) falls under one of two rules.  (a) If the field, one leading
sign `+` or `-` removed, is empty or has a byte that is not a digit after
digits of value at most `2^32 - 1` (size: `2^64 - 1`), the number is 0.  (b) If
the field, one leading sign removed, is a non-empty run of digits of value `v`,
or starts with a non-empty run of digits whose value `v` is above `2^32 - 1`
(size: `2^64 - 1`), the number is the unsigned conversion of the signed value:
`v` without `-` when `v < 2^31`, `2^31 - 1` without `-` otherwise, `-v` with
`-` when `v ≤ 2^31`, `-2^31` with `-` otherwise (size: `2^63` for `2^31`). -/
theorem readProtocolControl_numeric_fields (control : List Nat) (lead : Nat)
    (modeText sizeText p2 : List Nat)
    (hsplit : splitN 32 3 control = [lead :: modeText, sizeText, p2])
    (hlead : lead = 67 ∨ lead = 68) (hp2 : p2 ≠ []) :
    (∃ r, parseControl control = .ok r ∧
      (Malformed 8 (2 ^ 32 - 1) modeText → r.mode = 0) ∧
      (Malformed 10 (2 ^ 64 - 1) sizeText → r.size = 0) ∧
      (∀ ds tail, stripSign modeText = ds ++ tail → ds ≠ [] → (∀ x ∈ ds, digitBelow 8 x) →
        (tail = [] ∨ 2 ^ 32 - 1 < digitsValue 8 ds) →
        r.mode = toUint32 (signedValue 32 (isNegative modeText) (digitsValue 8 ds))) ∧
      (∀ ds tail, stripSign sizeText = ds ++ tail → ds ≠ [] → (∀ x ∈ ds, digitBelow 10 x) →
        (tail = [] ∨ 2 ^ 64 - 1 < digitsValue 10 ds) →
        r.size = toUint64 (signedValue 64 (isNegative sizeText) (digitsValue 10 ds)))) ∧
    (Malformed 8 (2 ^ 32 - 1) modeText ∨
      ∃ ds tail, stripSign modeText = ds ++ tail ∧ ds ≠ [] ∧ (∀ x ∈ ds, digitBelow 8 x) ∧
        (tail = [] ∨ 2 ^ 32 - 1 < digitsValue 8 ds)) ∧
    (Malformed 10 (2 ^ 64 - 1) sizeText ∨
      ∃ ds tail, stripSign sizeText = ds ++ tail ∧ ds ≠ [] ∧ (∀ x ∈ ds, digitBelow 10 x) ∧
        (tail = [] ∨ 2 ^ 64 - 1 < digitsValue 10 ds)) :=
  ⟨parseControl_numeric control lead modeText sizeText p2 hsplit hlead hp2,
    numeric_field_cases 8 (2 ^ 32 - 1) modeText, numeric_field_cases 10 (2 ^ 64 - 1) sizeText⟩

/-- Three lines: `C18 9a y` (both fields malformed, read as zero), `C-1 +7 y`
(signed fields, read as `2^32 - 1` and 7) and a line whose fields are out of
range below (read as `2^31` and `2^63`); the theorem at the second line. -/
theorem readProtocolControl_numeric_fields_witness :
    (splitN 32 3 (ascii "C-1 +7 y\n") = [67 :: ascii "-1", ascii "+7", ascii "y\n"] ∧
      (67 = 67 ∨ 67 = 68) ∧ ascii "y\n" ≠ []) ∧
    Malformed 8 (2 ^ 32 - 1) (ascii "18") ∧ Malformed 10 (2 ^ 64 - 1) (ascii "9a") ∧
    parseControl (ascii "C18 9a y\n") = .ok ⟨"file", 0, 0, ascii "y"⟩ ∧
    parseControl (ascii "C-1 +7 y\n") = .ok ⟨"file", 4294967295, 7, ascii "y"⟩ ∧
    toUint32 (signedValue 32 (isNegative (ascii "-1")) (digitsValue 8 (ascii "1"))) = 4294967295 ∧
    toUint64 (signedValue 64 (isNegative (ascii "+7")) (digitsValue 10 (ascii "7"))) = 7 ∧
    parseControl (ascii "C-77777777777 -9999999999999999999 y\n")
      = .ok ⟨"file", 2147483648, 9223372036854775808, ascii "y"⟩ ∧
    toUint32 (signedValue 32 (isNegative (ascii "-77777777777"))
      (digitsValue 8 (ascii "77777777777"))) = 2147483648 ∧
    toUint64 (signedValue 64 (isNegative (ascii "-9999999999999999999"))
      (digitsValue 10 (ascii "9999999999999999999"))) = 9223372036854775808 ∧
    ((∃ r, parseControl (ascii "C-1 +7 y\n") = .ok r ∧
      (Malformed 8 (2 ^ 32 - 1) (ascii "-1") → r.mode = 0) ∧
      (Malformed 10 (2 ^ 64 - 1) (ascii "+7") → r.size = 0) ∧
      (∀ ds tail, stripSign (ascii "-1") = ds ++ tail → ds ≠ [] → (∀ x ∈ ds, digitBelow 8 x) →
        (tail = [] ∨ 2 ^ 32 - 1 < digitsValue 8 ds) →
        r.mode = toUint32 (signedValue 32 (isNegative (ascii "-1")) (digitsValue 8 ds))) ∧
      (∀ ds tail, stripSign (ascii "+7") = ds ++ tail → ds ≠ [] → (∀ x ∈ ds, digitBelow 10 x) →
        (tail = [] ∨ 2 ^ 64 - 1 < digitsValue 10 ds) →
        r.size = toUint64 (signedValue 64 (isNegative (ascii "+7")) (digitsValue 10 ds)))) ∧
    (Malformed 8 (2 ^ 32 - 1) (ascii "-1") ∨
      ∃ ds tail, stripSign (ascii "-1") = ds ++ tail ∧ ds ≠ [] ∧ (∀ x ∈ ds, digitBelow 8 x) ∧
        (tail = [] ∨ 2 ^ 32 - 1 < digitsValue 8 ds)) ∧
    (Malformed 10 (2 ^ 64 - 1) (ascii "+7") ∨
      ∃ ds tail, stripSign (ascii "+7") = ds ++ tail ∧ ds ≠ [] ∧ (∀ x ∈ ds, digitBelow 10 x) ∧
        (tail = [] ∨ 2 ^ 64 - 1 < digitsValue 10 ds))) :=
  ⟨⟨by decide, by decide, by decide⟩,
    Or.inr ⟨[49], 56, [], by decide, by decide, by decide, by decide⟩,
    Or.inr ⟨[57], 97, [], by decide, by decide, by decide, by decide⟩,
    by decide, by decide, by decide, by decide, by decide, by decide, by decide,
    readProtocolControl_numeric_fields (ascii "C-1 +7 y\n") 67 (ascii "-1") (ascii "+7")
      (ascii "y\n") (by decide) (by decide) (by decide)⟩

/-- C8, refuted: the name field `../x` of a `C` line is returned as it is; it
has a path separator in it, and joined with `/tmp/d` it gives `/tmp/x`, which
does not lie in `/tmp/d`.  The name field `..` of a `D` line is returned as it
is as well. -/
theorem readProtocolControl_name_unchecked :
    parseControl (ascii "C0644 4 ../x\n") = .ok ⟨"file", 420, 4, ascii "../x"⟩ ∧
    ¬ singleComponent (ascii "../x") ∧
    filepathJoin (ascii "/tmp/d") (ascii "../x") = ascii "/tmp/x" ∧
    filepathDir (filepathJoin (ascii "/tmp/d") (ascii "../x")) ≠ filepathClean (ascii "/tmp/d") ∧
    parseControl (ascii "D0755 0 ..\n") = .ok ⟨"dir", 493, 0, ascii ".."⟩ ∧
    ¬ singleComponent (ascii "..") := by
  decide

/-- C8, amended: `readProtocolControl` returns the name field of a `C` or `D`
line as it is, without a check.  When the name field has no path separator in
it and is not empty, `.` or `..`, the name returned is a single path component
and the path obtained by joining a directory with it lies directly in that
directory: its `filepath.Dir` is the cleaned directory. -/
theorem readProtocolControl_plain_name (X : Nat) (m s n : List Nat) (dir : Path)
    (hX : X = 67 ∨ X = 68) (h0 : 32 ∉ m) (h1 : 32 ∉ s) (hn : PlainName n) :
    ∃ r, parseControl ((X :: m) ++ 32 :: (s ++ 32 :: (n ++ [10]))) = .ok r ∧ r.name = n ∧
      singleComponent r.name ∧
      filepathDir (filepathJoin dir r.name) = filepathClean dir := by
  obtain ⟨r, hr, hname⟩ := parseControl_name X m s n hX h0 h1
  refine ⟨r, hr, hname, ?_, ?_⟩
  · rw [hname]; exact ⟨hn.2.2.2, hn.2.2.1⟩
  · rw [hname]; exact filepathDir_join dir n hn

/-- The line `C0644 4 my file` received into `/tmp//d/`: the name is `my file`
and the joined path `/tmp/d/my file` lies in `/tmp/d`. -/
theorem readProtocolControl_plain_name_witness :
    ((67 = 67 ∨ 67 = 68) ∧ 32 ∉ ascii "0644" ∧ 32 ∉ ascii "4" ∧ PlainName (ascii "my file")) ∧
    filepathJoin (ascii "/tmp//d/") (ascii "my file") = ascii "/tmp/d/my file" ∧
    filepathClean (ascii "/tmp//d/") = ascii "/tmp/d" ∧
    ∃ r, parseControl ((67 :: ascii "0644") ++ 32 :: (ascii "4" ++ 32 :: (ascii "my file" ++ [10])))
        = .ok r ∧ r.name = ascii "my file" ∧ singleComponent r.name ∧
      filepathDir (filepathJoin (ascii "/tmp//d/") r.name) = filepathClean (ascii "/tmp//d/") :=
  ⟨⟨by decide, by decide, by decide, by decide⟩, by decide, by decide,
    readProtocolControl_plain_name 67 (ascii "0644") (ascii "4") (ascii "my file")
      (ascii "/tmp//d/") (by decide) (by decide) (by decide) (by decide)⟩

/-- C9: every call of `readProtocolControl` writes exactly one byte to the
channel, a zero, whatever it has read and whether or not taking the text apart
ends in a panic. -/
theorem readProtocolControl_writes_one_zero (conn : Channel) :
    (readProtocolControl conn).1.written = conn.written ++ [0] :=
  readProtocolControl_written conn

/-- C10, as the code behaves: when the first record `to` receives is the
header of a directory, the `dir` case of its switch is empty: `to` returns
having written its two zero bytes, the file system is as it was, no directory
is made and nothing that follows the header is received. -/
theorem scpTo_dir_header_receives_nothing (fuel : Nat) (tocreate : Path) (fs : FS)
    (m s n extra : List Nat) (more : List (List Nat)) (w : List Nat)
    (hm : m ≠ []) (hmd : ∀ c ∈ m, digitBelow 8 c) (hmv : digitsValue 8 m < 2 ^ 31)
    (hs : s ≠ []) (hsd : ∀ c ∈ s, digitBelow 10 c) (hsv : digitsValue 10 s < 2 ^ 63)
    (hn : 10 ∉ n) :
    ∃ c1, scpTo fuel tocreate
        ⟨((68 :: m) ++ 32 :: (s ++ 32 :: (n ++ 10 :: extra))) :: more, w⟩ fs
        = some ⟨none, c1, fs⟩ ∧ c1.written = w ++ [0, 0] := by
  have hres := controlOfHeaderLine 68 m s n extra more (w ++ [0]) (Or.inr rfl)
    hm hmd hmv hs hsd hsv hn
  have hwr := readProtocolControl_written
    ⟨((68 :: m) ++ 32 :: (s ++ 32 :: (n ++ 10 :: extra))) :: more, w ++ [0]⟩
  unfold scpTo
  simp only [Channel.write]
  rcases hr : readProtocolControl
    ⟨((68 :: m) ++ 32 :: (s ++ 32 :: (n ++ 10 :: extra))) :: more, w ++ [0]⟩ with ⟨c1, res⟩
  rw [hr] at hres hwr
  simp only at hres hwr
  subst hres
  refine ⟨c1, by simp, ?_⟩
  rw [hwr]
  simp

/-- The stream `D0755 0 a`, `C0644 4 x`, four bytes and a zero, `E`, sent to
`/tmp`: `to` stops after the first line and leaves `/tmp` as it was. -/
theorem scpTo_dir_header_witness :
    (ascii "0755" ≠ [] ∧ (∀ c ∈ ascii "0755", digitBelow 8 c) ∧
      digitsValue 8 (ascii "0755") < 2 ^ 31 ∧ ascii "0" ≠ [] ∧
      (∀ c ∈ ascii "0", digitBelow 10 c) ∧ digitsValue 10 (ascii "0") < 2 ^ 63 ∧
      10 ∉ ascii "a") ∧
    scpTo 100 (ascii "/tmp")
        ⟨[ascii "D0755 0 a\n", ascii "C0644 4 x\n", ascii "abcd" ++ [0], ascii "E\n"], []⟩
        [(ascii "/tmp", .dir 493)]
      = some ⟨none, ⟨[[], ascii "C0644 4 x\n", ascii "abcd" ++ [0], ascii "E\n"], [0, 0]⟩,
          [(ascii "/tmp", .dir 493)]⟩ ∧
    ∃ c1, scpTo 100 (ascii "/tmp")
        ⟨((68 :: ascii "0755") ++ 32 :: (ascii "0" ++ 32 :: (ascii "a" ++ 10 :: []))) ::
          [ascii "C0644 4 x\n", ascii "abcd" ++ [0], ascii "E\n"], []⟩
        [(ascii "/tmp", .dir 493)]
        = some ⟨none, c1, [(ascii "/tmp", .dir 493)]⟩ ∧ c1.written = [] ++ [0, 0] :=
  ⟨⟨by decide, by decide, by decide, by decide, by decide, by decide, by decide⟩,
    by decide,
    scpTo_dir_header_receives_nothing 100 (ascii "/tmp") [(ascii "/tmp", .dir 493)]
      (ascii "0755") (ascii "0") (ascii "a") []
      [ascii "C0644 4 x\n", ascii "abcd" ++ [0], ascii "E\n"] []
      (by decide) (by decide) (by decide) (by decide) (by decide) (by decide) (by decide)⟩

/-- C11, as the code behaves: `readDirectory` reads one control record and then
loops on it without reading another.  When the first record in the frame is a
file header, the loop calls `readFile` for that one record again and again and
`readDirectory` does not return, whatever the fuel and whatever follows the
header. -/
theorem readDirectory_never_returns_after_file_header (fuel : Nat) (fs fs1 : FS) (path : Path)
    (mode : Nat) (m s n extra : List Nat) (more : List (List Nat)) (w : List Nat)
    (hm : m ≠ []) (hmd : ∀ c ∈ m, digitBelow 8 c) (hmv : digitsValue 8 m < 2 ^ 31)
    (hs : s ≠ []) (hsd : ∀ c ∈ s, digitBelow 10 c) (hsv : digitsValue 10 s < 2 ^ 63)
    (hn : 10 ∉ n)
    (hmk : osMkdir fs path mode = .ok fs1 ∨ osMkdir fs path mode = .error .exist) :
    readDirectory fuel ⟨((67 :: m) ++ 32 :: (s ++ 32 :: (n ++ 10 :: extra))) :: more, w⟩
      fs path mode = none := by
  have hres := controlOfHeaderLine 67 m s n extra more w (Or.inl rfl) hm hmd hmv hs hsd hsv hn
  cases fuel with
  | zero => rw [readDirectory]
  | succ fuel =>
    rcases hr : readProtocolControl
      ⟨((67 :: m) ++ 32 :: (s ++ 32 :: (n ++ 10 :: extra))) :: more, w⟩ with ⟨c1, res⟩
    rw [hr] at hres
    simp only at hres
    subst hres
    rw [readDirectory]
    rcases hmk with h | h
    · rw [h]
      simp only [hr]
      exact readDirectoryLoop_file_never_returns _ _ (by simp) fuel c1 fs1
    · rw [h]
      simp only [hr]
      exact readDirectoryLoop_file_never_returns _ _ (by simp) fuel c1 fs

/-- The frame `C0644 4 x`, four bytes and a zero, `E`, received into the new
directory `/tmp/a`: no return within a thousand units of fuel. -/
theorem readDirectory_never_returns_witness :
    (ascii "0644" ≠ [] ∧ (∀ c ∈ ascii "0644", digitBelow 8 c) ∧
      digitsValue 8 (ascii "0644") < 2 ^ 31 ∧ ascii "4" ≠ [] ∧
      (∀ c ∈ ascii "4", digitBelow 10 c) ∧ digitsValue 10 (ascii "4") < 2 ^ 63 ∧
      10 ∉ ascii "x" ∧
      (osMkdir [(ascii "/tmp", .dir 493)] (ascii "/tmp/a") 493
          = .ok [(ascii "/tmp/a", .dir 493), (ascii "/tmp", .dir 493)] ∨
        osMkdir [(ascii "/tmp", .dir 493)] (ascii "/tmp/a") 493 = .error .exist)) ∧
    readDirectory 1000
      ⟨((67 :: ascii "0644") ++ 32 :: (ascii "4" ++ 32 :: (ascii "x" ++ 10 :: []))) ::
        [ascii "abcd" ++ [0], ascii "E\n"], []⟩
      [(ascii "/tmp", .dir 493)] (ascii "/tmp/a") 493 = none :=
  ⟨⟨by decide, by decide, by decide, by decide, by decide, by decide, by decide,
      Or.inl (by decide)⟩,
    readDirectory_never_returns_after_file_header 1000 [(ascii "/tmp", .dir 493)]
      [(ascii "/tmp/a", .dir 493), (ascii "/tmp", .dir 493)] (ascii "/tmp/a") 493
      (ascii "0644") (ascii "4") (ascii "x") [] [ascii "abcd" ++ [0], ascii "E\n"] []
      (by decide) (by decide) (by decide) (by decide) (by decide) (by decide) (by decide)
      (Or.inl (by decide))⟩

/-- C12: on a file header with name `n`, `to` hands the record to `readFile`
with the target `filepath.Join(destination, n)` when the destination is an
existing directory, and with the destination itself when it does not exist or
is an existing file; nothing but the node at the target can change.  When the
stat of the destination fails with another error, `to` returns with the file
system as it was. -/
theorem scpTo_file_header_target (fuel : Nat) (tocreate : Path) (fs : FS)
    (m s n extra : List Nat) (more : List (List Nat)) (w : List Nat)
    (hm : m ≠ []) (hmd : ∀ c ∈ m, digitBelow 8 c) (hmv : digitsValue 8 m < 2 ^ 31)
    (hs : s ≠ []) (hsd : ∀ c ∈ s, digitBelow 10 c) (hsv : digitsValue 10 s < 2 ^ 63)
    (hn : 10 ∉ n) :
    ((∃ dm, fs.get tocreate = some (.dir dm)) →
      scpTo fuel tocreate ⟨((67 :: m) ++ 32 :: (s ++ 32 :: (n ++ 10 :: extra))) :: more, w⟩ fs =
        received (readFile fuel
          (readProtocolControl
            ⟨((67 :: m) ++ 32 :: (s ++ 32 :: (n ++ 10 :: extra))) :: more, w ++ [0]⟩).1
          fs (filepathJoin tocreate n) (digitsValue 8 m) (digitsValue 10 s)) ∧
      ∀ o q, scpTo fuel tocreate
          ⟨((67 :: m) ++ 32 :: (s ++ 32 :: (n ++ 10 :: extra))) :: more, w⟩ fs = some o →
        q ≠ filepathJoin tocreate n → o.fs.get q = fs.get q) ∧
    ((fs.get tocreate = none ∨ ∃ fm old, fs.get tocreate = some (.file fm old)) →
      scpTo fuel tocreate ⟨((67 :: m) ++ 32 :: (s ++ 32 :: (n ++ 10 :: extra))) :: more, w⟩ fs =
        received (readFile fuel
          (readProtocolControl
            ⟨((67 :: m) ++ 32 :: (s ++ 32 :: (n ++ 10 :: extra))) :: more, w ++ [0]⟩).1
          fs tocreate (digitsValue 8 m) (digitsValue 10 s)) ∧
      ∀ o q, scpTo fuel tocreate
          ⟨((67 :: m) ++ 32 :: (s ++ 32 :: (n ++ 10 :: extra))) :: more, w⟩ fs = some o →
        q ≠ tocreate → o.fs.get q = fs.get q) ∧
    (fs.get tocreate = some .denied →
      scpTo fuel tocreate ⟨((67 :: m) ++ 32 :: (s ++ 32 :: (n ++ 10 :: extra))) :: more, w⟩ fs =
        some ⟨none,
          (readProtocolControl
            ⟨((67 :: m) ++ 32 :: (s ++ 32 :: (n ++ 10 :: extra))) :: more, w ++ [0]⟩).1, fs⟩) := by
  have hres := controlOfHeaderLine 67 m s n extra more (w ++ [0]) (Or.inl rfl)
    hm hmd hmv hs hsd hsv hn
  rcases hr : readProtocolControl
    ⟨((67 :: m) ++ 32 :: (s ++ 32 :: (n ++ 10 :: extra))) :: more, w ++ [0]⟩ with ⟨c1, res⟩
  rw [hr] at hres
  simp only at hres
  subst hres
  have hframe : ∀ (target : Path) (o : Outcome) (q : Path),
      received (readFile fuel c1 fs target (digitsValue 8 m) (digitsValue 10 s)) = some o →
      q ≠ target → o.fs.get q = fs.get q := by
    intro target o q ho hq
    unfold received at ho
    cases hrf : readFile fuel c1 fs target (digitsValue 8 m) (digitsValue 10 s) with
    | none => rw [hrf] at ho; simp at ho
    | some x =>
      obtain ⟨e, c2, fs2⟩ := x
      rw [hrf] at ho
      simp only [Option.map_some', Option.some.injEq] at ho
      rw [← ho]
      exact readFile_other fuel c1 c2 fs fs2 target q _ _ e hq hrf
  have hdir : (∃ dm, fs.get tocreate = some (.dir dm)) →
      scpTo fuel tocreate ⟨((67 :: m) ++ 32 :: (s ++ 32 :: (n ++ 10 :: extra))) :: more, w⟩ fs =
        received (readFile fuel c1 fs (filepathJoin tocreate n) (digitsValue 8 m)
          (digitsValue 10 s)) := by
    rintro ⟨dm, hg⟩
    unfold scpTo received
    simp only [Channel.write, hr, osStat, hg]
    cases readFile fuel c1 fs (filepathJoin tocreate n) (digitsValue 8 m) (digitsValue 10 s) <;>
      simp
  have hfile : (fs.get tocreate = none ∨ ∃ fm old, fs.get tocreate = some (.file fm old)) →
      scpTo fuel tocreate ⟨((67 :: m) ++ 32 :: (s ++ 32 :: (n ++ 10 :: extra))) :: more, w⟩ fs =
        received (readFile fuel c1 fs tocreate (digitsValue 8 m) (digitsValue 10 s)) := by
    intro h
    unfold scpTo received
    rcases h with hg | ⟨fm, old, hg⟩
    · simp only [Channel.write, hr, osStat, hg]
      cases readFile fuel c1 fs tocreate (digitsValue 8 m) (digitsValue 10 s) <;> simp
    · simp only [Channel.write, hr, osStat, hg]
      cases readFile fuel c1 fs tocreate (digitsValue 8 m) (digitsValue 10 s) <;> simp
  refine ⟨fun h => ⟨hdir h, ?_⟩, fun h => ⟨hfile h, ?_⟩, ?_⟩
  · intro o q ho hq
    rw [hdir h] at ho
    exact hframe _ o q ho hq
  · intro o q ho hq
    rw [hfile h] at ho
    exact hframe _ o q ho hq
  · intro hg
    unfold scpTo
    simp only [Channel.write, hr, osStat, hg]
    simp

/-- The header `C0644 4 x` with its content, received into the directory
`/tmp` (target `/tmp/x`), into the missing path `/tmp/f` (target `/tmp/f`) and
into a destination whose stat fails (nothing is made). -/
theorem scpTo_file_header_target_witness :
    (ascii "0644" ≠ [] ∧ (∀ c ∈ ascii "0644", digitBelow 8 c) ∧
      digitsValue 8 (ascii "0644") < 2 ^ 31 ∧ ascii "4" ≠ [] ∧
      (∀ c ∈ ascii "4", digitBelow 10 c) ∧ digitsValue 10 (ascii "4") < 2 ^ 63 ∧
      10 ∉ ascii "x") ∧
    scpTo 10 (ascii "/tmp") ⟨[ascii "C0644 4 x\n", ascii "abcd" ++ [0]], []⟩
        [(ascii "/tmp", .dir 493)]
      = some ⟨none, ⟨[[]], [0, 0, 0]⟩,
          [(ascii "/tmp/x", .file 420 (ascii "abcd")), (ascii "/tmp", .dir 493)]⟩ ∧
    scpTo 10 (ascii "/tmp/f") ⟨[ascii "C0644 4 x\n", ascii "abcd" ++ [0]], []⟩
        [(ascii "/tmp", .dir 493)]
      = some ⟨none, ⟨[[]], [0, 0, 0]⟩,
          [(ascii "/tmp/f", .file 420 (ascii "abcd")), (ascii "/tmp", .dir 493)]⟩ ∧
    scpTo 10 (ascii "/tmp")
        ⟨((67 :: ascii "0644") ++ 32 :: (ascii "4" ++ 32 :: (ascii "x" ++ 10 :: []))) ::
          [ascii "abcd" ++ [0]], []⟩ [(ascii "/tmp", .denied)] =
      some ⟨none,
        (readProtocolControl
          ⟨((67 :: ascii "0644") ++ 32 :: (ascii "4" ++ 32 :: (ascii "x" ++ 10 :: []))) ::
            [ascii "abcd" ++ [0]], [] ++ [0]⟩).1, [(ascii "/tmp", .denied)]⟩ :=
  ⟨⟨by decide, by decide, by decide, by decide, by decide, by decide, by decide⟩,
    by decide, by decide,
    (scpTo_file_header_target 10 (ascii "/tmp") [(ascii "/tmp", .denied)]
      (ascii "0644") (ascii "4") (ascii "x") [] [ascii "abcd" ++ [0]] []
      (by decide) (by decide) (by decide) (by decide) (by decide) (by decide) (by decide)).2.2
      (by decide)⟩

/-- C13, as the code behaves: `readFile` opens an existing file without
truncating it.  After a successful transfer of `size` bytes into a file with
the prior content `old`, the file holds the bytes received followed by what
`old` had from offset `size` on: when `old` was longer than `size`, its tail
stays in the file. -/
theorem readFile_keeps_tail_of_prior_content (fuel : Nat) (path : Path) (mode fm size j : Nat)
    (content old rest : List Nat) (more : List (List Nat)) (w : List Nat) (fs : FS)
    (hfile : fs.get path = some (.file fm old)) (hpos : 0 < size % 1024)
    (hsize : size < 2 ^ 64) (hdiv : size = size % 1024 * (j + 1))
    (hlen : content.length = size) :
    ∃ fs1, readFile (fuel + (j + 1)) ⟨(content ++ 0 :: rest) :: more, w⟩ fs path mode size
        = some (none, ⟨rest :: more, w ++ [0]⟩, fs1) ∧
      fs1.get path = some (.file fm (content ++ old.drop size)) := by
  have hopen : osOpenFile fs path mode = .ok fs := by simp [osOpenFile, hfile]
  have hloop := readFileLoop_exact path size hpos hsize j hdiv content (0 :: rest) more w fs
    fuel hlen
  refine ⟨fileWrite fs path 0 content, ?_, ?_⟩
  · unfold readFile
    rw [hopen]
    simp only
    rw [hloop]
    simp [readAck, Channel.read, recv, Channel.write]
  · simp only [fileWrite, hfile, FS.get_put_same]
    simp [overwriteAt, hlen]

/-- Four bytes received into a file of ten bytes: the last six stay. -/
theorem readFile_keeps_tail_witness :
    (FS.get [(ascii "/tmp/x", .file 384 (ascii "0123456789")), (ascii "/tmp", .dir 493)]
        (ascii "/tmp/x") = some (.file 384 (ascii "0123456789")) ∧
      0 < 4 % 1024 ∧ 4 < 2 ^ 64 ∧ 4 = 4 % 1024 * (0 + 1) ∧ (ascii "abcd").length = 4) ∧
    readFile 10 ⟨[ascii "abcd" ++ [0]], []⟩
        [(ascii "/tmp/x", .file 384 (ascii "0123456789")), (ascii "/tmp", .dir 493)]
        (ascii "/tmp/x") 420 4
      = some (none, ⟨[[]], [0]⟩,
          [(ascii "/tmp/x", .file 384 (ascii "abcd456789")), (ascii "/tmp", .dir 493)]) ∧
    ∃ fs1, readFile (9 + (0 + 1)) ⟨(ascii "abcd" ++ 0 :: []) :: [], []⟩
        [(ascii "/tmp/x", .file 384 (ascii "0123456789")), (ascii "/tmp", .dir 493)]
        (ascii "/tmp/x") 420 4 = some (none, ⟨[] :: [], [] ++ [0]⟩, fs1) ∧
      fs1.get (ascii "/tmp/x")
        = some (.file 384 (ascii "abcd" ++ (ascii "0123456789").drop 4)) :=
  ⟨⟨by decide, by decide, by decide, by decide, by decide⟩, by decide,
    readFile_keeps_tail_of_prior_content 9 (ascii "/tmp/x") 420 384 4 0 (ascii "abcd")
      (ascii "0123456789") [] [] []
      [(ascii "/tmp/x", .file 384 (ascii "0123456789")), (ascii "/tmp", .dir 493)]
      (by decide) (by decide) (by decide) (by decide) (by decide)⟩

/-- C14, refuted: asked for the missing path `/nope` by a peer whose greeting
is zero, `from` writes the error record and returns: it writes no `E` line and
the closing ACK byte of the peer stays unread. -/
theorem scpFrom_missing_path_stops_after_record :
    scpFrom scpErrorRecord 10 [] (ascii "/nope") ⟨⟨[[0], [0]], []⟩, []⟩ =
      some ⟨⟨[[], [0]],
          1 :: ascii "error: stat /nope: no such file or directory" ++ [10]⟩,
        [.readAck 0, .stat (ascii "/nope"),
          .write (1 :: ascii "error: stat /nope: no such file or directory" ++ [10])]⟩ := by
  decide

/-- C14, amended: when the greeting ACK is zero and the stat of the requested
path fails, `from` writes the error record and returns at once; it writes
nothing else and reads nothing more from the channel. -/
theorem scpFrom_stat_failure (scpError : List Nat → List Nat) (fuel : Nat) (fs : FS)
    (todownload : Path) (rest : List Nat) (more : List (List Nat)) (w : List Nat)
    (tr : List Op) (e : GoError) (hstat : osStat fs todownload = .error e) :
    scpFrom scpError fuel fs todownload ⟨⟨(0 :: rest) :: more, w⟩, tr⟩ =
      some ⟨⟨rest :: more, w ++ scpError (ascii "error: " ++ statErrorText todownload e)⟩,
        tr ++ [.readAck 0, .stat todownload,
          .write (scpError (ascii "error: " ++ statErrorText todownload e))]⟩ := by
  simp [scpFrom, Session.readAck, readAck, Channel.read, recv, hstat, Session.note,
    Session.write, Channel.write]

/-- The request for `/nope` on an empty file system. -/
theorem scpFrom_stat_failure_witness :
    osStat [] (ascii "/nope") = .error .notExist ∧
    scpFrom scpErrorRecord 10 [] (ascii "/nope") ⟨⟨(0 :: [7]) :: [[0]], [9]⟩, []⟩ =
      some ⟨⟨[7] :: [[0]],
          [9] ++ scpErrorRecord (ascii "error: " ++ statErrorText (ascii "/nope") .notExist)⟩,
        [] ++ [.readAck 0, .stat (ascii "/nope"),
          .write (scpErrorRecord (ascii "error: " ++ statErrorText (ascii "/nope") .notExist))]⟩ :=
  ⟨by decide,
    scpFrom_stat_failure scpErrorRecord 10 [] (ascii "/nope") [7] [[0]] [9] [] .notExist
      (by decide)⟩

/-- C15, refuted: for the file `/tmp/x` of mode 0644 and four bytes the line
written is `C0644 4 x`, with a zero in front of the octal digits; for the same
file with the setuid bit the mode field is `040000755`, the whole of Go's
`FileMode`, not the permission bits. -/
theorem scpTransferFile_header_examples :
    (scpTransferFile 10 [(ascii "/tmp/x", .file 420 (ascii "abcd"))] (ascii "/tmp/x")
        ⟨ascii "x", 4, false, 420⟩ ⟨⟨[[0], [0]], []⟩, []⟩).map (fun r => r.2.conn.written) =
      some (ascii "C0644 4 x\nabcd" ++ [0]) ∧
    (scpTransferFile 10 [(ascii "/tmp/x", .file (2 ^ 23 + 493) (ascii "abcd"))] (ascii "/tmp/x")
        ⟨ascii "x", 4, false, 2 ^ 23 + 493⟩ ⟨⟨[[0], [0]], []⟩, []⟩).map
        (fun r => r.2.conn.written) =
      some (ascii "C040000755 4 x\nabcd" ++ [0]) := by
  decide

/-- C15, amended: for a file whose mode has permission bits only, the first
bytes `scpTransferFile` writes are `C`, a `0` and the permission bits in octal
(a single `0` when they are zero), a space, the size in decimal, a space, the
base name of the path and a newline. -/
theorem scpTransferFile_header (fuel : Nat) (fs : FS) (path : Path) (fi : FileInfo)
    (s : Session) (hperm : fi.mode < 512)
    (hfuel : ∀ fm data, fs.get path = some (.file fm data) → data.length / 1024 + 1 ≤ fuel) :
    (∃ e s1 tail, scpTransferFile fuel fs path fi s = some (e, s1) ∧
      s1.conn.written = s.conn.written ++
        (67 :: (if fi.perm = 0 then [48] else 48 :: formatNat 8 fi.perm) ++
          32 :: formatNat 10 fi.size ++ 32 :: filepathBase path ++ [10]) ++ tail) ∧
    digitsValue 8 (formatNat 8 fi.perm) = fi.perm ∧
    digitsValue 10 (formatNat 10 fi.size) = fi.size ∧
    (0 < fi.perm → ∃ d ds, formatNat 8 fi.perm = d :: ds ∧ d ≠ 48) := by
  have hp : fi.perm = fi.mode := Nat.mod_eq_of_lt hperm
  refine ⟨?_, (formatNat_spec 8 fi.perm (by decide)).1, (formatNat_spec 10 fi.size (by decide)).1,
    (formatNat_spec 8 fi.perm (by decide)).2.2.1⟩
  have hhead : 67 :: (if fi.perm = 0 then [48] else 48 :: formatNat 8 fi.perm) ++
      32 :: formatNat 10 fi.size ++ 32 :: filepathBase path ++ [10] = fileHeader path fi := by
    rw [hp, ← fmtSharpOctal_eq]
    rfl
  rw [hhead]
  have hw1 := Session.readAck_written (s.write (fileHeader path fi))
  unfold scpTransferFile
  rw [show (67 :: fmtSharpOctal fi.mode ++ 32 :: fmtDecimal fi.size ++
      32 :: filepathBase path ++ [10]) = fileHeader path fi from rfl]
  rcases hr : (s.write (fileHeader path fi)).readAck with ⟨ready, s1⟩
  rw [hr] at hw1
  simp only at hw1
  have hw1b : s1.conn.written = s.conn.written ++ fileHeader path fi := by
    rw [hw1]; rfl
  simp only
  by_cases hready : ready = 0
  · rw [if_neg (by simpa using hready)]
    cases hg : fs.get path with
    | none =>
      refine ⟨some .notExist, s1.note (.osOpen path), [], ?_, ?_⟩
      · simp [osOpen, hg]
      · simp [Session.note, hw1b]
    | some node =>
      cases node with
      | denied =>
        refine ⟨some .denied, s1.note (.osOpen path), [], ?_, ?_⟩
        · simp [osOpen, hg]
        · simp [Session.note, hw1b]
      | dir dm =>
        refine ⟨some .isDirectory,
          ((((s1.note (.osOpen path)).note (.fileRead path 0)).write [0]).readAck).2, [0], ?_, ?_⟩
        · simp only [osOpen, hg]
        · rw [Session.readAck_written]
          simp [Session.note, Session.write, Channel.write, hw1b]
      | file fm data =>
        obtain ⟨s2, h1, _, h3⟩ := sendLoop_sends path fuel data (s1.note (.osOpen path))
          (hfuel fm data hg)
        refine ⟨none, ((s2.write [0]).readAck).2, data ++ [0], ?_, ?_⟩
        · simp only [osOpen, hg, h1]
        · rw [Session.readAck_written]
          simp [Session.write, Channel.write, h3, Session.note, hw1b]
  · rw [if_pos (by simpa using hready)]
    exact ⟨some .newFileRefused, s1, [], rfl, by simp [hw1b]⟩

/-- The file `/tmp/x` of mode 0644 and four bytes: the line is `C0644 4 x`. -/
theorem scpTransferFile_header_witness :
    ((⟨ascii "x", 4, false, 420⟩ : FileInfo).mode < 512 ∧
      ∀ fm data, FS.get [(ascii "/tmp/x", .file 420 (ascii "abcd"))] (ascii "/tmp/x")
        = some (.file fm data) → data.length / 1024 + 1 ≤ 10) ∧
    fileHeader (ascii "/tmp/x") ⟨ascii "x", 4, false, 420⟩ = ascii "C0644 4 x\n" ∧
    ((∃ e s1 tail, scpTransferFile 10 [(ascii "/tmp/x", .file 420 (ascii "abcd"))]
        (ascii "/tmp/x") ⟨ascii "x", 4, false, 420⟩ ⟨⟨[[0], [0]], []⟩, []⟩ = some (e, s1) ∧
      s1.conn.written = [] ++
        (67 :: (if (⟨ascii "x", 4, false, 420⟩ : FileInfo).perm = 0 then [48]
            else 48 :: formatNat 8 (⟨ascii "x", 4, false, 420⟩ : FileInfo).perm) ++
          32 :: formatNat 10 4 ++ 32 :: filepathBase (ascii "/tmp/x") ++ [10]) ++ tail) ∧
    digitsValue 8 (formatNat 8 (⟨ascii "x", 4, false, 420⟩ : FileInfo).perm)
      = (⟨ascii "x", 4, false, 420⟩ : FileInfo).perm ∧
    digitsValue 10 (formatNat 10 4) = 4 ∧
    (0 < (⟨ascii "x", 4, false, 420⟩ : FileInfo).perm →
      ∃ d ds, formatNat 8 (⟨ascii "x", 4, false, 420⟩ : FileInfo).perm = d :: ds ∧ d ≠ 48)) :=
  ⟨⟨by decide, by
      intro fm data h
      have hg : FS.get [(ascii "/tmp/x", Node.file 420 (ascii "abcd"))] (ascii "/tmp/x")
          = some (.file 420 (ascii "abcd")) := by decide
      rw [hg] at h
      simp only [Option.some.injEq, Node.file.injEq] at h
      rw [← h.2]
      decide⟩,
    by decide,
    scpTransferFile_header 10 [(ascii "/tmp/x", .file 420 (ascii "abcd"))] (ascii "/tmp/x")
      ⟨ascii "x", 4, false, 420⟩ ⟨⟨[[0], [0]], []⟩, []⟩ (by decide) (by
        intro fm data h
        have hg : FS.get [(ascii "/tmp/x", Node.file 420 (ascii "abcd"))] (ascii "/tmp/x")
            = some (.file 420 (ascii "abcd")) := by decide
        rw [hg] at h
        simp only [Option.some.injEq, Node.file.injEq] at h
        rw [← h.2]
        decide)⟩

/-- C16, as the code behaves: the calls `from` makes for the tree of the
scenario against a peer that answers with zeros.  After the `E` line that
closes `b` and after the `E` line that closes `a` no ACK is read: the three
`E` lines are written one after the other, and one ACK is read after the last.
`scpTransferDirectory` writes its `E` line and returns. -/
theorem scpFrom_trace_of_scenario :
    (scpFrom scpErrorRecord 100 scenarioTree (ascii "/tmp/a")
        ⟨⟨List.replicate 10 [0], []⟩, []⟩).map (fun s => s.trace) =
      some [.readAck 0, .stat (ascii "/tmp/a"),
        .write (ascii "D0755 1 a\n"), .readAck 0,
        .osOpen (ascii "/tmp/a"), .readdir (ascii "/tmp/a"),
        .write (ascii "C0644 4 x\n"), .readAck 0,
        .osOpen (ascii "/tmp/a/x"), .fileRead (ascii "/tmp/a/x") 4, .write (ascii "abcd"),
        .write [0], .readAck 0,
        .write (ascii "D0600 1 b\n"), .readAck 0,
        .osOpen (ascii "/tmp/a/b"), .readdir (ascii "/tmp/a/b"),
        .write (ascii "C0600 0 y\n"), .readAck 0,
        .osOpen (ascii "/tmp/a/b/y"), .fileRead (ascii "/tmp/a/b/y") 0,
        .write [0], .readAck 0,
        .write (ascii "E\n"), .write (ascii "E\n"), .write (ascii "E\n"), .readAck 0] := by
  decide

/-- C17: for a regular file with the content `c`, read in blocks of 1024
bytes, and a peer that answers the header with zero, `scpTransferFile` returns
`nil` whatever the closing ACK is; what it has written is the header, the bytes
of `c` in order and one zero byte; it has read the ACK of the header and, after
the zero byte, one more byte. -/
theorem scpTransferFile_sends_content (fuel : Nat) (fs : FS) (path : Path) (fi : FileInfo)
    (fm : Nat) (c rest : List Nat) (more : List (List Nat)) (w : List Nat) (tr : List Op)
    (hfile : fs.get path = some (.file fm c)) (hfuel : c.length / 1024 + 1 ≤ fuel) :
    ∃ s1, scpTransferFile fuel fs path fi ⟨⟨(0 :: rest) :: more, w⟩, tr⟩ = some (none, s1) ∧
      s1.conn = (readAck ⟨rest :: more, w ++ fileHeader path fi ++ c ++ [0]⟩).2 ∧
      ∃ pre st, s1.trace = pre ++ [.write [0], .readAck st] := by
  have hack : (Session.write ⟨⟨(0 :: rest) :: more, w⟩, tr⟩ (fileHeader path fi)).readAck =
      (0, ⟨⟨rest :: more, w ++ fileHeader path fi⟩,
        tr ++ [.write (fileHeader path fi)] ++ [.readAck 0]⟩) := by
    simp [Session.readAck, Session.write, Channel.write, readAck, Channel.read, recv]
  obtain ⟨s2, h1, h2, h3⟩ := sendLoop_sends path fuel c
    ((⟨⟨rest :: more, w ++ fileHeader path fi⟩,
      tr ++ [.write (fileHeader path fi)] ++ [.readAck 0]⟩ : Session).note (.osOpen path)) hfuel
  refine ⟨((s2.write [0]).readAck).2, ?_, ?_, ?_⟩
  · unfold scpTransferFile
    rw [show (67 :: fmtSharpOctal fi.mode ++ 32 :: fmtDecimal fi.size ++
      32 :: filepathBase path ++ [10]) = fileHeader path fi from rfl, hack]
    simp only [osOpen, hfile, h1]
    simp
  · have hc : (s2.write [0]).conn = ⟨rest :: more, w ++ fileHeader path fi ++ c ++ [0]⟩ := by
      rcases s2 with ⟨⟨inc, wr⟩, t⟩
      simp only [Session.note] at h2 h3
      simp only [Session.write, Channel.write]
      rw [h2, h3]
    unfold Session.readAck
    rw [hc]
  · unfold Session.readAck
    exact ⟨s2.trace, (readAck (s2.write [0]).conn).1.1, by simp [Session.write]⟩

/-- A file of 2048 bytes sent to a peer whose closing ACK is 1. -/
theorem scpTransferFile_sends_content_witness :
    (FS.get [(ascii "/tmp/x", .file 420 (List.replicate 2048 7))] (ascii "/tmp/x")
        = some (.file 420 (List.replicate 2048 7)) ∧
      (List.replicate 2048 7).length / 1024 + 1 ≤ 5) ∧
    ∃ s1, scpTransferFile 5 [(ascii "/tmp/x", .file 420 (List.replicate 2048 7))]
        (ascii "/tmp/x") ⟨ascii "x", 2048, false, 420⟩ ⟨⟨(0 :: [1]) :: [], []⟩, []⟩
        = some (none, s1) ∧
      s1.conn = (readAck ⟨[1] :: [], [] ++ fileHeader (ascii "/tmp/x")
        ⟨ascii "x", 2048, false, 420⟩ ++ List.replicate 2048 7 ++ [0]⟩).2 ∧
      ∃ pre st, s1.trace = pre ++ [.write [0], .readAck st] :=
  ⟨⟨by rw [FS.get, if_pos rfl], by rw [List.length_replicate]; decide⟩,
    scpTransferFile_sends_content 5 [(ascii "/tmp/x", .file 420 (List.replicate 2048 7))]
      (ascii "/tmp/x") ⟨ascii "x", 2048, false, 420⟩ 420 (List.replicate 2048 7) [1] [] [] []
      (by rw [FS.get, if_pos rfl]) (by rw [List.length_replicate]; decide)⟩

/-- C18, refuted: the bytes `from` writes for the tree of the scenario are not
those of the claim: the entry count in the two `D` lines is 1, not 0. -/
theorem scpFrom_scenario_differs :
    (scpFrom scpErrorRecord 100 scenarioTree (ascii "/tmp/a")
        ⟨⟨List.replicate 10 [0], []⟩, []⟩).map (fun s => s.conn.written) ≠
      some (ascii "D0755 0 a\nC0644 4 x\nabcd" ++ [0] ++ ascii "D0600 0 b\nC0600 0 y\n" ++ [0] ++
        ascii "E\nE\nE\n") := by
  decide

/-- C18, amended: for the tree of the scenario and a peer answering every
ACK with zero, the bytes `from` writes depend on whether the process may search
`b`, whose mode is 0600.  When it may (it runs as root, the stat of `y`
succeeds), they are `D0755 1 a`, `C0644 4 x`, the four content bytes, a zero
byte, `D0600 1 b`, `C0600 0 y`, a zero byte, and three times `E`, each line
closed by a newline.  When it may not (the stat of `y` fails while `b` is
listed), they are `D0755 1 a`, `C0644 4 x`, the four content bytes, a zero
byte, `D0600 1 b` and the final `E`. -/
theorem scpFrom_scenario_bytes :
    (scpFrom scpErrorRecord 100 scenarioTree (ascii "/tmp/a")
        ⟨⟨List.replicate 10 [0], []⟩, []⟩).map (fun s => s.conn.written) =
      some (ascii "D0755 1 a\nC0644 4 x\nabcd" ++ [0] ++ ascii "D0600 1 b\nC0600 0 y\n" ++ [0] ++
        ascii "E\nE\nE\n") ∧
    (scpFrom scpErrorRecord 100 scenarioTreeNoSearch (ascii "/tmp/a")
        ⟨⟨List.replicate 10 [0], []⟩, []⟩).map (fun s => s.conn.written) =
      some (ascii "D0755 1 a\nC0644 4 x\nabcd" ++ [0] ++ ascii "D0600 1 b\nE\n") ∧
    (scpFrom scpErrorRecord 100 scenarioTreeNoSearch (ascii "/tmp/a")
        ⟨⟨List.replicate 10 [0], []⟩, []⟩).map (fun s => s.trace) =
      some [.readAck 0, .stat (ascii "/tmp/a"),
        .write (ascii "D0755 1 a\n"), .readAck 0,
        .osOpen (ascii "/tmp/a"), .readdir (ascii "/tmp/a"),
        .write (ascii "C0644 4 x\n"), .readAck 0,
        .osOpen (ascii "/tmp/a/x"), .fileRead (ascii "/tmp/a/x") 4, .write (ascii "abcd"),
        .write [0], .readAck 0,
        .write (ascii "D0600 1 b\n"), .readAck 0,
        .osOpen (ascii "/tmp/a/b"), .readdir (ascii "/tmp/a/b"),
        .write (ascii "E\n"), .readAck 0] := by
  decide

/-- C19, as the code behaves: for the size 1025 the second read of `readFile`
takes one byte, like the first, however many bytes are at hand: after two
rounds exactly two bytes have been consumed and written.  Every read asks for
`size % 1024` bytes. -/
theorem readFile_second_read_takes_one_byte (path : Path) (c0 c1 : Nat) (rest : List Nat)
    (more : List (List Nat)) (w : List Nat) (fs : FS) (fuel : Nat) :
    readFileLoop path 1025 (fuel + 2) ⟨(c0 :: c1 :: rest) :: more, w⟩ fs 0 0 =
      readFileLoop path 1025 fuel ⟨rest :: more, w⟩ (fileWrite fs path 0 [c0, c1]) 2 2 := by
  have h := readFileLoop_rounds path 1025 (by decide) (by decide) rest more w 1 [c0, c1]
    fs 0 0 fuel (by simp) (by simp)
  simpa using h

/-- C20: when the greeting ACK that `from` reads is not zero, or the read of
it fails (status -1), `from` returns after that one read: it has written
nothing to the channel and made no call on the file system. -/
theorem scpFrom_refused_greeting (scpError : List Nat → List Nat) (fuel : Nat) (fs : FS)
    (todownload : Path) (s : Session) (h : (readAck s.conn).1.1 ≠ 0) :
    scpFrom scpError fuel fs todownload s =
      some ⟨(readAck s.conn).2, s.trace ++ [.readAck (readAck s.conn).1.1]⟩ ∧
    (readAck s.conn).2.written = s.conn.written := by
  constructor
  · unfold scpFrom Session.readAck
    rcases hr : readAck s.conn with ⟨⟨status, err⟩, c1⟩
    rw [hr] at h
    simp only at h
    simp [h]
  · unfold readAck
    have hw := Channel.read_written s.conn 1
    rcases hr : s.conn.read 1 with ⟨data, c1⟩
    rw [hr] at hw
    cases data with
    | none => exact hw
    | some d =>
      cases d with
      | nil => exact hw
      | cons b bs => exact hw

/-- A greeting byte of 1, and a channel the peer has closed: `from` stops
after the read in both runs. -/
theorem scpFrom_refused_greeting_witness :
    ((readAck ⟨[[1, 0]], [5]⟩).1.1 ≠ 0 ∧ (readAck ⟨[], [5]⟩).1.1 ≠ 0) ∧
    (scpFrom scpErrorRecord 10 [(ascii "/tmp", .dir 493)] (ascii "/tmp") ⟨⟨[[1, 0]], [5]⟩, []⟩ =
        some ⟨(readAck ⟨[[1, 0]], [5]⟩).2, [] ++ [.readAck (readAck ⟨[[1, 0]], [5]⟩).1.1]⟩ ∧
      (readAck ⟨[[1, 0]], [5]⟩).2.written = [5]) ∧
    (scpFrom scpErrorRecord 10 [(ascii "/tmp", .dir 493)] (ascii "/tmp") ⟨⟨[], [5]⟩, []⟩ =
        some ⟨(readAck ⟨[], [5]⟩).2, [] ++ [.readAck (readAck ⟨[], [5]⟩).1.1]⟩ ∧
      (readAck ⟨[], [5]⟩).2.written = [5]) ∧
    scpFrom scpErrorRecord 10 [(ascii "/tmp", .dir 493)] (ascii "/tmp") ⟨⟨[[1, 0]], [5]⟩, []⟩ =
      some ⟨⟨[[0]], [5]⟩, [.readAck 1]⟩ ∧
    scpFrom scpErrorRecord 10 [(ascii "/tmp", .dir 493)] (ascii "/tmp") ⟨⟨[], [5]⟩, []⟩ =
      some ⟨⟨[], [5]⟩, [.readAck (-1)]⟩ :=
  ⟨⟨by decide, by decide⟩,
    scpFrom_refused_greeting scpErrorRecord 10 [(ascii "/tmp", .dir 493)] (ascii "/tmp")
      ⟨⟨[[1, 0]], [5]⟩, []⟩ (by decide),
    scpFrom_refused_greeting scpErrorRecord 10 [(ascii "/tmp", .dir 493)] (ascii "/tmp")
      ⟨⟨[], [5]⟩, []⟩ (by decide),
    by decide, by decide⟩

end ScpHandler
